import Mathlib

/-!
Verification of the `legs` lexer-generator core.

This file gives a shallow embedding of the Python sources:
* `legs_base.py` — the dict-driven lexer runtime (`DictLexerBase.__next__`);
* `legs/nfa.py` — `NFA` (ε-closure, simulation, `validate`) and the subset
  construction `gen_dfa`;
* `legs/dfa.py` — `DFA` (`match`) and the Hopcroft-style `minimizeDFA`.

Modelling conventions:
* Python `dict`s become insertion-ordered association lists (`Dict` below);
  `dict` lookup that raises `KeyError` becomes an `Option`/`Except` result.
* Python `set`s become duplicate-free lists kept in ascending order; where
  the source iterates a set (whose order CPython leaves unspecified) the
  embedding iterates it in ascending order, and where the source pops an
  arbitrary element a fixed one is popped.  These are resolutions of the
  source's internal nondeterminism.
* Bytes and transition symbols are `Int` (the NFA's `empty_symbol` is `-1`);
  input text is a list of byte values.
* Loops whose termination is not structural take a fuel argument and return
  `none`/`.error` when it runs out; callers pass fuel that is large enough
  for the inputs considered.
* Failing `assert` statements and `exit(...)` calls are modelled as `none`
  or `.error` results.
-/

namespace Legs

set_option maxRecDepth 100000

instance exceptDecEq {ε α : Type} [DecidableEq ε] [DecidableEq α] :
    DecidableEq (Except ε α)
  | .error e, .error f =>
    if h : e = f then .isTrue (by rw [h]) else .isFalse (by simp [h])
  | .error _, .ok _ => .isFalse (by simp)
  | .ok _, .error _ => .isFalse (by simp)
  | .ok a, .ok b =>
    if h : a = b then .isTrue (by rw [h]) else .isFalse (by simp [h])

/-- Dict models a Python dict as an insertion-ordered association list. -/
abbrev Dict (α β : Type) := List (α × β)

/-- dictGet models Python `d.get(k)` / `d[k]`: the value at the first
matching key, if any. -/
def dictGet {α β : Type} [DecidableEq α] (d : Dict α β) (k : α) : Option β :=
  match d with
  | [] => none
  | (k', v) :: rest => if k' = k then some v else dictGet rest k

/-- dictSet models Python `d[k] = v`: update in place if the key is present,
else append (Python dicts preserve insertion order). -/
def dictSet {α β : Type} [DecidableEq α] (d : Dict α β) (k : α) (v : β) : Dict α β :=
  match d with
  | [] => [(k, v)]
  | (k', v') :: rest => if k' = k then (k', v) :: rest else (k', v') :: dictSet rest k v

/-- dictKeys models Python `d.keys()` (in insertion order). -/
def dictKeys {α β : Type} (d : Dict α β) : List α := d.map Prod.fst

/-- dictValues models Python `d.values()` (in insertion order). -/
def dictValues {α β : Type} (d : Dict α β) : List β := d.map Prod.snd

/-- dictGet2 is lookup in a nested dict: Python `d[k1][k2]` with `KeyError`
becoming `none`. -/
def dictGet2 {α β γ : Type} [DecidableEq α] [DecidableEq β]
    (d : Dict α (Dict β γ)) (k1 : α) (k2 : β) : Option γ :=
  match dictGet d k1 with
  | none => none
  | some d2 => dictGet d2 k2

/-! ## Lexer runtime: `legs_base.py`, class `DictLexerBase` -/

/-- ModeData is the per-mode entry of `DictLexerBase.mode_data`:
`(start_node, state_transitions, match_state_kinds)`. -/
structure ModeData where
  start : Nat
  transitions : Dict Nat (Dict Int Nat)
  matchNodeKinds : Dict Nat String
deriving DecidableEq

/-- Token is `legs_base.Token` (`kind`, `pos`, `end`); `end` is a reserved
word in Lean so the field is `stop`. -/
structure Token where
  kind : String
  pos : Nat
  stop : Nat
deriving DecidableEq

/-- LexerTables packages the class attributes of a generated `DictLexerBase`
subclass: `mode_data` and `mode_transitions`. -/
structure LexerTables where
  modeData : Dict String ModeData
  modeTransitions : Dict String (Dict String (String × String))

/-- LexerState is the mutable state of the lexer: `self.pos` and
`self.stack`.  The top of the Python stack (`stack[-1]`) is the head of the
list here; the frames are `(mode, pop_kind)` pairs. -/
structure LexerState where
  pos : Nat
  stack : List (String × Option String)
deriving DecidableEq

/-- lexScan is the inner byte loop of `DictLexerBase.__next__`: starting at
`state` it consumes bytes while a transition exists, recording `end`/`kind`
at every match node, and returns the final `(pos, end, kind)`. -/
def lexScan (trans : Dict Nat (Dict Int Nat)) (kinds : Dict Nat String) :
    List Int → Nat → Nat → Option Nat → String → Nat × Option Nat × String
  | [], pos, _, end?, kind => (pos, end?, kind)
  | byte :: rest, pos, state, end?, kind =>
    match dictGet2 trans state byte with
    | none => (pos, end?, kind)
    | some state' =>
      match dictGet kinds state' with
      | none => lexScan trans kinds rest (pos + 1) state' end? kind
      | some k => lexScan trans kinds rest (pos + 1) state' (some (pos + 1)) k

/-- lexEmit is the tail of `DictLexerBase.__next__` after the byte loop: the
`assert token_pos < end`, the mode-stack update (pop if `kind == pop_kind`,
else push the frame from `mode_transitions` when present), and the `Token`
result.  A failing assert is `none`. -/
def lexEmit (tables : LexerTables) (tokenPos : Nat) (mode : String)
    (popKind : Option String) (rest : List (String × Option String))
    (stop : Nat) (kind : String) : Option (Token × LexerState) :=
  if tokenPos < stop then
    let stack' :=
      if popKind = some kind then rest
      else
        match dictGet2 tables.modeTransitions mode kind with
        | none => (mode, popKind) :: rest
        | some (m', pk') => (m', some pk') :: (mode, popKind) :: rest
    some (⟨kind, tokenPos, stop⟩, ⟨stop, stack'⟩)
  else none

/-- lexNext models one call of `DictLexerBase.__next__`.  The outer `none`
is a crash (failed assert, empty stack, or a mode missing from `mode_data`);
`some none` is `StopIteration`; `some (some (tok, st'))` is an emitted token
together with the successor lexer state. -/
def lexNext (tables : LexerTables) (text : List Int) (st : LexerState) :
    Option (Option (Token × LexerState)) :=
  if st.pos = text.length then some none
  else
    match st.stack with
    | [] => none
    | (mode, popKind) :: rest =>
      match dictGet tables.modeData mode with
      | none => none
      | some md =>
        match lexScan md.transitions md.matchNodeKinds (text.drop st.pos)
            st.pos md.start none "incomplete" with
        | (pos', end?, kind) =>
          match end? with
          | none =>
            if kind = "incomplete" then
              (lexEmit tables st.pos mode popKind rest pos' kind).map some
            else none
          | some e => (lexEmit tables st.pos mode popKind rest e kind).map some

/-- lexAll iterates `lexNext` until `StopIteration`, collecting the emitted
tokens; `none` is a crash or fuel exhaustion. -/
def lexAll (tables : LexerTables) (text : List Int) :
    Nat → LexerState → Option (List Token)
  | 0, _ => none
  | fuel + 1, st =>
    match lexNext tables text st with
    | none => none
    | some none => some []
    | some (some (tok, st')) =>
      match lexAll tables text fuel st' with
      | none => none
      | some ts => some (tok :: ts)

/-! ## Lexer well-formedness and the totality development (claim C1) -/

/-- bytesWF says the input is a byte string: every element is in [0,255]. -/
def bytesWF (text : List Int) : Prop := ∀ b ∈ text, 0 ≤ b ∧ b < 256

/-- modeComplete is the sink-completion invariant for one mode: the mode's
start state has a transition on every byte value. -/
def modeComplete (md : ModeData) : Prop :=
  ∀ b : Int, 0 ≤ b → b < 256 → (dictGet2 md.transitions md.start b).isSome

/-- tablesWF: the `main` mode exists, every mode of `mode_data` satisfies the
sink-completion invariant, and every mode-transition target is a mode of
`mode_data`. -/
def tablesWF (t : LexerTables) : Prop :=
  (dictGet t.modeData "main").isSome ∧
  (∀ mode md, dictGet t.modeData mode = some md → modeComplete md) ∧
  (∀ mode kmap kind fr, dictGet t.modeTransitions mode = some kmap →
    dictGet kmap kind = some fr → (dictGet t.modeData fr.1).isSome)

/-- stackWF: every frame's mode is in `mode_data`, and the bottom frame has
pop kind `None` (as the initial frame `('main', None)` does), so it is
nonempty and the bottom frame is never popped. -/
def stackWF (t : LexerTables) (s : List (String × Option String)) : Prop :=
  (∀ f ∈ s, (dictGet t.modeData f.1).isSome) ∧
  ∃ init m, s = init ++ [(m, none)]

/-- tokensChain states that a token list starting at position `p` tiles the
input up to its length: each token starts where the previous one stopped,
is nonempty, and stays within bounds. -/
def tokensChain (text : List Int) : Nat → List Token → Prop
  | p, [] => p = text.length
  | p, tok :: ts =>
    tok.pos = p ∧ p < tok.stop ∧ tok.stop ≤ text.length ∧
      tokensChain text tok.stop ts

/-! ## Sorted-list sets

Python `set`/`frozenset` values are modelled as duplicate-free lists kept in
ascending order of a strict order `ltb`; set iteration is therefore in
ascending order and popping an arbitrary element pops the least one (fixed
resolutions of CPython's unspecified iteration order). -/

/-- ndIns inserts an element into a sorted duplicate-free list. -/
def ndIns {α : Type} [DecidableEq α] (ltb : α → α → Bool) (x : α) :
    List α → List α
  | [] => [x]
  | y :: ys => if x = y then y :: ys else if ltb x y then x :: y :: ys else y :: ndIns ltb x ys

/-- ndUnion folds `ndIns` over the first set, modelling set union. -/
def ndUnion {α : Type} [DecidableEq α] (ltb : α → α → Bool)
    (s t : List α) : List α :=
  s.foldr (ndIns ltb) t

/-- ndDiff is set difference `s - t`. -/
def ndDiff {α : Type} [DecidableEq α] (s t : List α) : List α :=
  s.filter (fun x => ¬ x ∈ t)

/-- ndInter is set intersection. -/
def ndInter {α : Type} [DecidableEq α] (s t : List α) : List α :=
  s.filter (fun x => x ∈ t)

/-- natLtb is the strict order used for node-id sets. -/
def natLtb (a b : Nat) : Bool := a < b

/-- intLtb is the strict order used for symbol sets. -/
def intLtb (a b : Int) : Bool := a < b

/-- strLtb is Python's string order: lexicographic on code points. -/
def strLtb (a b : String) : Bool := a.data < b.data

/-- sortedItems models Python `sorted(d.items())` for a dict with distinct
keys: sort the pairs by key. -/
def sortedItems {β : Type} (d : Dict Nat β) : Dict Nat β :=
  List.insertionSort (fun p q => p.1 ≤ q.1) d

/-! ## NFA: `legs/nfa.py` -/

/-- NFA mirrors `nfa.py`'s class `NFA`: `transitions` maps a node to a dict
from symbol to a set of destination nodes (symbol `-1` is `empty_symbol`),
`matchNodeNames` names the match nodes, and `literalRules` holds the names
of literal rules (only membership is used, so the set of keys of the Python
dict is kept). -/
structure NFA where
  transitions : Dict Nat (Dict Int (List Nat))
  matchNodeNames : Dict Nat String
  literalRules : List String
deriving DecidableEq

/-- epsTotal is the total length of the ε-destination lists; together with
the initial state's size it bounds the closure worklist: every iteration
pops one pending node, pending nodes come from the initial state or some
ε-destination list, and an expanded node is never re-added. -/
def epsTotal (nfa : NFA) : Nat :=
  nfa.transitions.foldr
    (fun p acc => ((dictGet p.2 (-1)).getD []).length + acc) 0

/-- nfaSize bounds the number of distinct nodes of the NFA: one per
transition row plus the total length of all destination lists. -/
def nfaSize (nfa : NFA) : Nat :=
  nfa.transitions.foldr
    (fun p acc => 1 + p.2.foldr (fun q a2 => q.2.length + a2) acc) 0

/-- advanceEmptiesLoop is the worklist loop of `NFA.advance_empties`: pop a
node from `remaining`, add it to `expanded`, and enqueue its unexpanded
ε-successors.  Fuel bounds the iteration count. -/
def advanceEmptiesLoop (nfa : NFA) : Nat → List Nat → List Nat → Option (List Nat)
  | 0, _, _ => none
  | fuel + 1, remaining, expanded =>
    match remaining with
    | [] => some expanded
    | node :: rest =>
      match dictGet2 nfa.transitions node (-1) with
      | none => advanceEmptiesLoop nfa fuel rest (ndIns natLtb node expanded)
      | some dst =>
        advanceEmptiesLoop nfa fuel
          (ndUnion natLtb (ndDiff dst (ndIns natLtb node expanded)) rest)
          (ndIns natLtb node expanded)

/-- advance_empties is `NFA.advance_empties`: the ε-closure worklist run
with enough fuel for any input (each iteration either consumes one of the
at most `universe + state` pending nodes or terminates). -/
def advance_empties (nfa : NFA) (state : List Nat) : List Nat :=
  (advanceEmptiesLoop nfa (state.length + epsTotal nfa + 1) state []).getD []

/-- NFA.advance is `NFA.advance`: union the byte successors of every node
of the state, then take the ε-closure. -/
def NFA.advance (nfa : NFA) (state : List Nat) (byte : Int) : List Nat :=
  advance_empties nfa
    (state.foldr
      (fun node acc =>
        match dictGet2 nfa.transitions node byte with
        | none => acc
        | some dst => ndUnion natLtb dst acc) [])

/-- namesOfState models `filtermap_with_mapping(state, matchNodeNames)`
collected into a `frozenset`: the names of the state's named nodes. -/
def namesOfState (nfa : NFA) (state : List Nat) : List String :=
  state.foldr
    (fun n acc =>
      match dictGet nfa.matchNodeNames n with
      | none => acc
      | some nm => ndIns strLtb nm acc) []

/-- NFA.matchB is `NFA.match` on a byte string: simulate from the ε-closure
of `{0}`, then return the literal matches if any, else all matches. -/
def NFA.matchB (nfa : NFA) (text : List Int) : List String :=
  let finalState := text.foldl (fun st b => nfa.advance st b) (advance_empties nfa [0])
  let allMatches := namesOfState nfa finalState
  let literalMatches := allMatches.filter (fun n => n ∈ nfa.literalRules)
  if literalMatches.isEmpty then allMatches else literalMatches

/-- validateMsg is the message `validate` formats for one trivially-matched
rule name. -/
def validateMsg (name : String) : String :=
  "error: rule is trivially matched from start: " ++ name ++ "."

/-- NFA.validate is `NFA.validate`: one message per match node contained in
the ε-closure of `{0}`, iterating `sorted(matchNodeNames.items())`. -/
def NFA.validate (nfa : NFA) : List String :=
  ((sortedItems nfa.matchNodeNames).filter
    (fun p => p.1 ∈ advance_empties nfa [0])).map (fun p => validateMsg p.2)

/-! ## DFA: `legs/dfa.py`, class `DFA` -/

/-- DFA mirrors `dfa.py`'s class `DFA`: `transitions` maps a node to a dict
from byte to destination node; `matchNodeNames` names the match nodes;
`literalRules` keeps the literal-rule names (only membership and identity
are used). -/
structure DFA where
  transitions : Dict Nat (Dict Int Nat)
  matchNodeNames : Dict Nat String
  literalRules : List String
deriving DecidableEq

/-- dfaRun walks the DFA from `state` over the byte string; a missing
transition is the `KeyError` that `DFA.match` turns into `None`. -/
def dfaRun (dfa : DFA) : List Int → Nat → Option Nat
  | [], state => some state
  | b :: rest, state =>
    match dictGet2 dfa.transitions state b with
    | none => none
    | some s' => dfaRun dfa rest s'

/-- DFA.matchB is `DFA.match` on a byte string: walk from node 0; on a
missing transition return no-match, else look the final node up in
`matchNodeNames`. -/
def DFA.matchB (dfa : DFA) (text : List Int) : Option String :=
  match dfaRun dfa text 0 with
  | none => none
  | some s => dictGet dfa.matchNodeNames s

/-- DFA.alphabet is the set of byte keys of all transition dicts, without
`empty_symbol`, in ascending order. -/
def DFA.alphabet (dfa : DFA) : List Int :=
  (dfa.transitions.foldr
    (fun p acc => p.2.foldr (fun q a2 => ndIns intLtb q.1 a2) acc) []).filter
    (fun c => ¬ c = -1)

/-- DFA.allSrcNodes is the set of source nodes (transition-table keys). -/
def DFA.allSrcNodes (dfa : DFA) : List Nat :=
  dfa.transitions.foldr (fun p acc => ndIns natLtb p.1 acc) []

/-- DFA.allDstNodes is the set of destination nodes. -/
def DFA.allDstNodes (dfa : DFA) : List Nat :=
  dfa.transitions.foldr
    (fun p acc => p.2.foldr (fun q a2 => ndIns natLtb q.2 a2) acc) []

/-- DFA.allNodes is sources union destinations. -/
def DFA.allNodes (dfa : DFA) : List Nat :=
  ndUnion natLtb dfa.allSrcNodes dfa.allDstNodes

/-- DFA.matchNodes is the set of named nodes. -/
def DFA.matchNodes (dfa : DFA) : List Nat :=
  dfa.matchNodeNames.foldr (fun p acc => ndIns natLtb p.1 acc) []

/-- DFA.nonMatchNodes is `allNodes - matchNodes`. -/
def DFA.nonMatchNodes (dfa : DFA) : List Nat :=
  ndDiff dfa.allNodes dfa.matchNodes

/-- DFA.ruleNames is the set of match-node names (`frozenset` of the values
of `matchNodeNames`). -/
def DFA.ruleNames (dfa : DFA) : List String :=
  dfa.matchNodeNames.foldr (fun p acc => ndIns strLtb p.2 acc) []

/-! ## Subset construction: `gen_dfa` in `legs/nfa.py` -/

/-- NFA.alphabet is `NFA.alphabet`: all symbol keys except `empty_symbol`,
ascending. -/
def NFA.alphabet (nfa : NFA) : List Int :=
  (nfa.transitions.foldr
    (fun p acc => p.2.foldr (fun q a2 => ndIns intLtb q.1 a2) acc) []).filter
    (fun c => ¬ c = -1)

/-- lookupOrAlloc models `nfa_states_to_dfa_nodes[state]` where the dict is
a `defaultdict(mk_node)`: return the node of a known state, else allocate
the next id (ids count allocations from 0, as `count()` does). -/
def lookupOrAlloc (d : Dict (List Nat) Nat) (s : List Nat) :
    Nat × Dict (List Nat) Nat :=
  match dictGet d s with
  | some n => (n, d)
  | none => (d.length, d ++ [(s, d.length)])

/-- dictSetDefault models access to a `defaultdict` entry: return the
existing value, or install and return the default. -/
def dictSetDefault {α β : Type} [DecidableEq α] (d : Dict α β) (k : α)
    (dflt : β) : β × Dict α β :=
  match dictGet d k with
  | some v => (v, d)
  | none => (dflt, d ++ [(k, dflt)])

/-- genChars is the inner loop of `gen_dfa` over the alphabet for one
subset state: record `d[char] = dst_node` for every nonempty successor
state, allocating ids and enqueueing undiscovered states.  `trans` is the
transition table as of the start of this state's processing (its key set —
the processed nodes plus the current one — is what `dst_node not in
transitions` consults; the loop itself only mutates the inner dict `d`). -/
def genChars (nfa : NFA) (trans : Dict Nat (Dict Int Nat)) (state : List Nat) :
    List Int → Dict (List Nat) Nat → Dict Int Nat → List (List Nat) →
    Dict (List Nat) Nat × Dict Int Nat × List (List Nat)
  | [], s2n, d, remaining => (s2n, d, remaining)
  | char :: chars, s2n, d, remaining =>
    let dst := nfa.advance state char
    match dst with
    | [] => genChars nfa trans state chars s2n d remaining
    | _ =>
      let (dstNode, s2n') := lookupOrAlloc s2n dst
      let d' := dictSet d char dstNode
      let remaining' :=
        if (dictGet trans dstNode).isSome then remaining
        else if dst ∈ remaining then remaining else remaining ++ [dst]
      genChars nfa trans state chars s2n' d' remaining'

/-- genLoop is the worklist loop of `gen_dfa`.  The Python worklist is a
set; here newly discovered states are appended and the head is popped. -/
def genLoop (nfa : NFA) (alphabet : List Int) :
    Nat → Dict (List Nat) Nat → Dict Nat (Dict Int Nat) → List (List Nat) →
    Option (Dict (List Nat) Nat × Dict Nat (Dict Int Nat))
  | 0, _, _, _ => none
  | fuel + 1, s2n, trs, remaining =>
    match remaining with
    | [] => some (s2n, trs)
    | state :: rest =>
      let (node, s2n₁) := lookupOrAlloc s2n state
      let (d, trans₁) := dictSetDefault trs node []
      match genChars nfa trans₁ state alphabet s2n₁ d rest with
      | (s2n₂, d', rest') =>
        genLoop nfa alphabet fuel s2n₂ (dictSet trans₁ node d') rest'

/-- rangeBytes is `range(0x100)` as symbols. -/
def rangeBytes : List Int := (List.range 256).map (fun n : Nat => (n : Int))

/-- genCompleteStep is one byte's worth of the sink-completion loop,
abstracted out of `genComplete` for the proofs below. -/
def genCompleteStep (startDict : Dict Int Nat) (invalidNode : Nat)
    (acc : Dict Int Nat × Dict Int Nat) (c : Int) : Dict Int Nat × Dict Int Nat :=
  if (dictGet startDict c).isSome then acc
  else (dictSet acc.1 c invalidNode, dictSet acc.2 c invalidNode)

/-- genComplete is the sink-completion step of `gen_dfa`: for every byte
without a transition from the start node, add `start → invalid` and
`invalid → invalid`. -/
def genComplete (startNode invalidNode : Nat)
    (startDict invalidDict : Dict Int Nat) : Dict Int Nat × Dict Int Nat :=
  rangeBytes.foldl
    (fun acc c =>
      if (dictGet startDict c).isSome then acc
      else (dictSet acc.1 c invalidNode, dictSet acc.2 c invalidNode))
    (startDict, invalidDict)

/-- genNameSets builds `matchNodeNameSets`: for every discovered subset
state, the names of its named NFA nodes, keyed by the DFA node. -/
def genNameSets (nfa : NFA) (s2n : Dict (List Nat) Nat) : Dict Nat (List String) :=
  s2n.foldl
    (fun acc p =>
      p.1.foldl
        (fun acc2 n =>
          match dictGet nfa.matchNodeNames n with
          | none => acc2
          | some name =>
            match dictSetDefault acc2 p.2 [] with
            | (cur, acc3) => dictSet acc3 p.2 (ndIns strLtb name cur)) acc)
    []

/-- strFoldMin is the least element of a nonempty name list under Python's
string order. -/
def strFoldMin (n : String) (ns : List String) : String :=
  ns.foldl (fun m x => if strLtb x m then x else m) n

/-- Modelled from the spec: the name-coalescing step of subset construction
(spec §4.4 step 5) is missing from `src` — `gen_dfa` builds
`matchNodeNameSets` and hands it to a `DFA` constructor that only accepts
already-coalesced `matchNodeNames` — so it is modelled from the spec's
words: a literal rule beats non-literal rules, among equals the
lexicographically smallest name wins, and a tie between two non-literal
rules is a generation error. -/
def coalesceNames (literalRules : List String) (names : List String) :
    Except String String :=
  let lits := names.filter (fun n => n ∈ literalRules)
  match lits with
  | l :: ls => .ok (strFoldMin l ls)
  | [] =>
    match names with
    | [n] => .ok n
    | _ => .error "error: ambiguous rules at a DFA node"

/-- coalesceNameSets coalesces every node's name set, in table order. -/
def coalesceNameSets (literalRules : List String)
    (nameSets : Dict Nat (List String)) : Except String (Dict Nat String) :=
  nameSets.foldl
    (fun acc p => do
      let d ← acc
      let n ← coalesceNames literalRules p.2
      pure (dictSet d p.1 n))
    (.ok [])

/-- gen_dfa is `gen_dfa` of `nfa.py`: subset construction from the
ε-closure of `{0}`, the unreachable invalid state `{1}`, sink completion at
the start and invalid nodes, and the (spec-modelled) coalescing of
`matchNodeNameSets` into `matchNodeNames`.  Errors model the failing
`assert` and the ambiguity diagnostic; the fuel bounds the worklist by the
number of distinct subset states. -/
def gen_dfa (nfa : NFA) : Except String DFA :=
  let start := advance_empties nfa [0]
  let invalid : List Nat := [1]
  match lookupOrAlloc [] start with
  | (startNode, s2n₀) =>
    match lookupOrAlloc s2n₀ invalid with
    | (invalidNode, s2n₁) =>
      match genLoop nfa nfa.alphabet (2 ^ (nfaSize nfa + 2) + 2)
          s2n₁ [] [start] with
      | none => .error "fuel exhausted in subset construction"
      | some (s2n, trs) =>
        if (dictGet trs invalidNode).isSome then
          .error "assert failed: invalid node is a transition source"
        else
          match dictSetDefault trs startNode [] with
          | (startDict, trans₁) =>
            match dictSetDefault trans₁ invalidNode [] with
            | (invalidDict, trans₂) =>
              match genComplete startNode invalidNode startDict invalidDict with
              | (startDict', invalidDict') =>
                let trans₃ := dictSet (dictSet trans₂ startNode startDict')
                  invalidNode invalidDict'
                match coalesceNameSets nfa.literalRules (genNameSets nfa s2n) with
                | .error e => .error e
                | .ok matchNames =>
                  .ok ⟨trans₃, matchNames, nfa.literalRules⟩

/-! ## DFA minimization: `minimizeDFA` in `legs/dfa.py`

The Python code keys live class objects by `id(...)` and mutates them in
place; the embedding gives every class a token (allocated by a counter), a
`store` from token to class set, and a `partition` from node to token.
The worklist `remaining` holds class tokens and is kept in reverse order:
Python's `list.append`/`list.pop()` become cons and head. -/

/-- dfaSize bounds the number of nodes of a DFA: one per transition row
plus one per transition entry, plus the named nodes; the minimization
worklist pops at most the initial sets plus one class per split, and splits
are bounded by the node count. -/
def dfaSize (dfa : DFA) : Nat :=
  dfa.transitions.foldr (fun p acc => 1 + p.2.length + acc) 0 +
    dfa.matchNodeNames.length

/-- PartAcc is the partition-refinement state: `store` is the `sets` dict
(token to class), `partition` maps each node to its class token, `nextTok`
is the allocation counter. -/
structure PartAcc where
  store : Dict Nat (List Nat)
  partition : Dict Nat Nat
  nextTok : Nat
deriving DecidableEq

/-- initSets is the initial rough partition: a singleton per match node
(ascending), then the set of non-match nodes. -/
def initSets (dfa : DFA) : List (List Nat) :=
  dfa.matchNodes.map (fun n => [n]) ++ [dfa.nonMatchNodes]

/-- initPartAcc enumerates `initSets` into the token store and builds the
node-to-token partition dict (tokens in list order, then members). -/
def initPartAcc (dfa : DFA) : PartAcc :=
  let sets := initSets dfa
  let store := (sets.zip (List.range sets.length)).map (fun p => (p.2, p.1))
  let partition := store.foldl
    (fun acc p => p.2.foldl (fun acc2 n => dictSet acc2 n p.1) acc) []
  ⟨store, partition, sets.length⟩

/-- revTransitions builds `rev_transitions`: destination to byte to the set
of sources (the `defaultdict` reads during refinement are modelled as
lookups with an empty default). -/
def revTransitions (dfa : DFA) : Dict Nat (Dict Int (List Nat)) :=
  dfa.transitions.foldl
    (fun acc p =>
      p.2.foldl
        (fun acc2 q =>
          match dictSetDefault acc2 q.2 [] with
          | (inner, acc3) =>
            match dictSetDefault inner q.1 [] with
            | (s, inner2) =>
              dictSet acc3 q.2 (dictSet inner2 q.1 (ndIns natLtb p.1 s))) acc)
    []

/-- refineGroups is the first loop of `refine`: group the refining set's
nodes by their current class token, in first-encounter order.  (A node
outside the partition would be a `KeyError`; refining sets always consist
of transition sources, which the partition covers.) -/
def refineGroups (partition : Dict Nat Nat) (refiningSet : List Nat) :
    Dict Nat (List Nat) :=
  refiningSet.foldl
    (fun acc node =>
      match dictGet partition node with
      | none => acc
      | some tok =>
        match dictSetDefault acc tok [] with
        | (cur, acc2) => dictSet acc2 tok (ndIns natLtb node cur))
    []

/-- refineApplyStep handles one group in the second loop of `refine`: if
the group is a proper subset of its class, allocate a token for the
intersection, repartition its members, shrink the old class, and record
the `(intersection, mutated original)` pair as a token pair. -/
def refineApplyStep (st : PartAcc × List (Nat × Nat)) (g : Nat × List Nat) :
    PartAcc × List (Nat × Nat) :=
  match dictGet st.1.store g.1 with
  | none => st
  | some s =>
    if g.2 = s then st
    else
      let newTok := st.1.nextTok
      let store' := dictSet (dictSet st.1.store g.1 (ndDiff s g.2)) newTok g.2
      let partition' := g.2.foldl (fun pp x => dictSet pp x newTok) st.1.partition
      (⟨store', partition', newTok + 1⟩, st.2 ++ [(newTok, g.1)])

/-- refineApply is the second loop of `refine`, folded over the groups. -/
def refineApply (groups : List (Nat × List Nat)) (acc : PartAcc) :
    PartAcc × List (Nat × Nat) :=
  groups.foldl refineApplyStep (acc, [])

/-- minAddPairs is the worklist update after a refinement: for each
`(new, old)` pair append the smaller half if absent, else the other half if
absent (Hopcroft's policy as coded).  `remaining` is in reverse order, so
append is cons. -/
def minAddPairs (store : Dict Nat (List Nat)) (remaining : List Nat)
    (pairs : List (Nat × Nat)) : List Nat :=
  pairs.foldl
    (fun rem pr =>
      let lnew := ((dictGet store pr.1).getD []).length
      let lold := ((dictGet store pr.2).getD []).length
      if lnew < lold then
        if pr.1 ∈ rem then (if pr.2 ∈ rem then rem else pr.2 :: rem)
        else pr.1 :: rem
      else
        if pr.2 ∈ rem then (if pr.1 ∈ rem then rem else pr.1 :: rem)
        else pr.2 :: rem)
    remaining

/-- minChars is the inner loop of `minimizeDFA` over the alphabet for one
splitter token `a`: compute the set of nodes entering the (current) class
of `a` on each byte, skip trivial refining sets, and apply the refinement;
the class of `a` is re-read every byte because `refine` may shrink it. -/
def minChars (rev : Dict Nat (Dict Int (List Nat))) (aTok : Nat) :
    List Int → PartAcc → List Nat → PartAcc × List Nat
  | [], acc, remaining => (acc, remaining)
  | char :: chars, acc, remaining =>
    let aSet := (dictGet acc.store aTok).getD []
    let dsts := aSet.foldl
      (fun ds n => ndUnion natLtb ((dictGet2 rev n char).getD []) ds) []
    if dsts.length = 0 ∨ dsts.length = acc.partition.length then
      minChars rev aTok chars acc remaining
    else
      match refineApply (refineGroups acc.partition dsts) acc with
      | (acc', pairs) =>
        minChars rev aTok chars acc' (minAddPairs acc'.store remaining pairs)

/-- minLoop is the outer worklist loop of `minimizeDFA`: pop a splitter
(the most recently appended, as `list.pop()` does) and run the byte loop. -/
def minLoop (alphabet : List Int) (rev : Dict Nat (Dict Int (List Nat))) :
    Nat → PartAcc → List Nat → Option PartAcc
  | 0, _, _ => none
  | fuel + 1, acc, remaining =>
    match remaining with
    | [] => some acc
    | aTok :: rest =>
      match minChars rev aTok alphabet acc rest with
      | (acc', remaining') => minLoop alphabet rev fuel acc' remaining'

/-- classLists is `sorted(p) for p in partition.values()`: one entry per
node key (so a class of size k appears k times), each class already in
ascending order. -/
def classLists (acc : PartAcc) : List (List Nat) :=
  acc.partition.map (fun p => (dictGet acc.store p.2).getD [])

/-- buildMapping sorts the per-node class lists and enumerates them,
assigning `mapping[old] = index` for every member of every entry —
duplicate entries of one class overwrite with later indices, exactly as the
source's `enumerate(sorted(sorted(p) for p in partition.values()))` does. -/
def buildMapping (classes : List (List Nat)) : Dict Nat Nat :=
  (List.insertionSort (fun a b : List Nat => a ≤ b) classes).foldl
    (fun st part =>
      (part.foldl (fun m old => dictSet m old st.2) st.1, st.2 + 1)) ([], 0)
    |>.1

/-- rebuildRow maps one source row through the class mapping, failing on an
inconsistent duplicate target (`exit(...)` in the source). -/
def rebuildRow (mapping : Dict Nat Nat) (oldD : Dict Int Nat)
    (newD : Dict Int Nat) : Except String (Dict Int Nat) :=
  oldD.foldl
    (fun acc q => do
      let d ← acc
      match dictGet mapping q.2 with
      | none => .error "KeyError: unmapped destination node"
      | some newDst =>
        match dictGet d q.1 with
        | some existing =>
          if existing = newDst then pure d
          else .error "inconsistency in minimized DFA"
        | none => pure (dictSet d q.1 newDst))
    (.ok newD)

/-- rebuildTransitions rebuilds the transition table through the mapping
(a `defaultdict(dict)` keyed by the new node ids, in old-table order). -/
def rebuildTransitions (dfa : DFA) (mapping : Dict Nat Nat) :
    Except String (Dict Nat (Dict Int Nat)) :=
  dfa.transitions.foldl
    (fun acc p => do
      let t ← acc
      match dictGet mapping p.1 with
      | none => .error "KeyError: unmapped source node"
      | some newNode =>
        match dictSetDefault t newNode [] with
        | (newD, t₁) => do
          let newD' ← rebuildRow mapping p.2 newD
          pure (dictSet t₁ newNode newD'))
    (.ok [])

/-- rebuildNames is `{ mapping[old] : name for old, name in
dfa.matchNodeNames.items() }` (with dict-comprehension overwrite). -/
def rebuildNames (dfa : DFA) (mapping : Dict Nat Nat) :
    Except String (Dict Nat String) :=
  dfa.matchNodeNames.foldl
    (fun acc p => do
      let d ← acc
      match dictGet mapping p.1 with
      | none => .error "KeyError: unmapped match node"
      | some newNode => pure (dictSet d newNode p.2))
    (.ok [])

/-- minimizeDFA is `minimizeDFA` of `dfa.py`: Hopcroft-style partition
refinement from the match-singleton partition, canonical-sort renumbering,
table rebuild with the inconsistency check, and `literalRules` passed
through.  The fuel bounds the worklist iterations. -/
def minimizeDFA (dfa : DFA) : Except String DFA :=
  let alphabet := dfa.alphabet
  let acc₀ := initPartAcc dfa
  let rev := revTransitions dfa
  let remaining₀ := (List.range (initSets dfa).length).reverse
  match minLoop alphabet rev (2 * dfaSize dfa + 8) acc₀ remaining₀ with
  | none => .error "fuel exhausted in minimization"
  | some acc => do
    let mapping := buildMapping (classLists acc)
    let trs ← rebuildTransitions dfa mapping
    let mnn ← rebuildNames dfa mapping
    pure ⟨trs, mnn, dfa.literalRules⟩

/-! ## Concrete automata used as counterexamples and witnesses -/

/-- exRuleA is the NFA `genNFA` builds for the single literal rule
`r = 'a'`: start node 0, reserved invalid node 1 named `invalid`, match
node 2 named `r`, one transition `0 --97--> 2`. -/
def exRuleA : NFA :=
  ⟨[(0, [(97, [2])])], [(1, "invalid"), (2, "r")], ["r"]⟩

/-- exC6DFA is a fat-DFA-shaped input to `minimizeDFA` in which the
non-match nodes 2 and 3 are equivalent (both step to the match node 4 on
byte 98): nodes 0 start, 1 invalid (named, no edges), alphabet {97, 98}. -/
def exC6DFA : DFA :=
  ⟨[(0, [(97, 2), (98, 3)]), (1, []), (2, [(98, 4)]), (3, [(98, 4)]),
    (4, [])],
   [(1, "invalid"), (4, "r")], []⟩

/-- exSubT is a two-mode lexer table: `main` matches byte 97 as kind
`open` and pushes mode `sub` with pop kind `close`; `sub` steps on byte 98
to a non-match state and matches byte 99 as kind `close`. -/
def exSubT : LexerTables :=
  ⟨[("main", ⟨0, [(0, [(97, 2)])], [(2, "open")]⟩),
    ("sub", ⟨0, [(0, [(98, 5), (99, 6)])], [(6, "close")]⟩)],
   [("main", [("open", ("sub", "close"))])]⟩

/-- exMainMD is the single mode of `exMainT`. -/
def exMainMD : ModeData :=
  ⟨0, [(0, rangeBytes.map (fun c => (c, if c = 97 then 2 else 1)))],
   [(2, "a")]⟩

/-- exMainT is a single-mode lexer table whose start state has a
transition on every byte: byte 97 reaches the match state 2 (kind `a`),
every other byte reaches the dead state 1. -/
def exMainT : LexerTables := ⟨[("main", exMainMD)], []⟩

/-- MInvP is the minimization invariant for one match node `n` with class
token `tokn`: `n`'s class is the singleton `[n]` under its own token, no
other stored class contains `n`, no other node carries `n`'s token, stored
tokens are below the allocation counter, and the partition dict has
distinct keys. -/
def MInvP (n tokn : Nat) (acc : PartAcc) : Prop :=
  dictGet acc.partition n = some tokn ∧
  dictGet acc.store tokn = some [n] ∧
  (∀ tok l, dictGet acc.store tok = some l → n ∈ l → tok = tokn ∧ l = [n]) ∧
  (∀ v, dictGet acc.partition v = some tokn → v = n) ∧
  (∀ tok, (dictGet acc.store tok).isSome = true → tok < acc.nextTok) ∧
  (dictKeys acc.partition).Nodup

/-- exC2DFA is a fat-DFA-shaped input to `minimizeDFA` in which the start
node 0 and node 3 are equivalent (both step to the match node 2 on byte
97): after minimization the start class {0, 3} receives a nonzero id and
no minimized node is numbered 0. -/
def exC2DFA : DFA :=
  ⟨[(0, [(97, 2)]), (1, []), (2, []), (3, [(97, 2)])],
   [(1, "invalid"), (2, "r")], []⟩

theorem dictGet_dictSet_self {α β : Type} [DecidableEq α]
    (d : Dict α β) (k : α) (v : β) : dictGet (dictSet d k v) k = some v := by
  induction d with
  | nil => simp [dictSet, dictGet]
  | cons p rest ih =>
    obtain ⟨k', v'⟩ := p
    by_cases h : k' = k <;> simp [dictSet, dictGet, h, ih]

theorem dictGet_dictSet_ne {α β : Type} [DecidableEq α]
    (d : Dict α β) (k k'' : α) (v : β) (h : k ≠ k'') :
    dictGet (dictSet d k v) k'' = dictGet d k'' := by
  induction d with
  | nil => simp [dictSet, dictGet, h]
  | cons p rest ih =>
    obtain ⟨k', v'⟩ := p
    by_cases hk : k' = k
    · subst hk
      simp [dictSet, dictGet, h]
    · simp [dictSet, dictGet, hk, ih]

theorem lexScan_pos_le (trans : Dict Nat (Dict Int Nat))
    (kinds : Dict Nat String) :
    ∀ (bytes : List Int) (pos state : Nat) (end? : Option Nat) (kind : String),
      pos ≤ (lexScan trans kinds bytes pos state end? kind).1 ∧
      (lexScan trans kinds bytes pos state end? kind).1 ≤ pos + bytes.length := by
  intro bytes
  induction bytes with
  | nil => intro pos state end? kind; simp [lexScan]
  | cons b rest ih =>
    intro pos state end? kind
    simp only [lexScan]
    rcases h1 : dictGet2 trans state b with _ | state'
    · simp
    · simp only [h1]
      rcases h2 : dictGet kinds state' with _ | k
      · simp only [h2]
        have := ih (pos + 1) state' end? kind
        constructor
        · omega
        · simp only [List.length_cons]
          omega
      · simp only [h2]
        have := ih (pos + 1) state' (some (pos + 1)) k
        constructor
        · omega
        · simp only [List.length_cons]
          omega

theorem lexScan_end_cases (trans : Dict Nat (Dict Int Nat))
    (kinds : Dict Nat String) :
    ∀ (bytes : List Int) (pos state : Nat) (end? : Option Nat) (kind : String),
      (lexScan trans kinds bytes pos state end? kind).2.1 = end? ∨
      ∃ e, (lexScan trans kinds bytes pos state end? kind).2.1 = some e ∧
        pos < e ∧ e ≤ (lexScan trans kinds bytes pos state end? kind).1 := by
  intro bytes
  induction bytes with
  | nil => intro pos state end? kind; left; simp [lexScan]
  | cons b rest ih =>
    intro pos state end? kind
    simp only [lexScan]
    rcases h1 : dictGet2 trans state b with _ | state'
    · left; simp
    · simp only [h1]
      rcases h2 : dictGet kinds state' with _ | k
      · simp only [h2]
        rcases ih (pos + 1) state' end? kind with h | ⟨e, he, hlt, hle⟩
        · left; exact h
        · right; exact ⟨e, he, by omega, hle⟩
      · simp only [h2]
        rcases ih (pos + 1) state' (some (pos + 1)) k with h | ⟨e, he, hlt, hle⟩
        · right
          refine ⟨pos + 1, h, by omega, ?_⟩
          have := (lexScan_pos_le trans kinds rest (pos + 1) state'
            (some (pos + 1)) k).1
          omega
        · right; exact ⟨e, he, by omega, hle⟩

theorem lexScan_none_kind (trans : Dict Nat (Dict Int Nat))
    (kinds : Dict Nat String) :
    ∀ (bytes : List Int) (pos state : Nat) (end? : Option Nat) (kind : String),
      (lexScan trans kinds bytes pos state end? kind).2.1 = none →
      (lexScan trans kinds bytes pos state end? kind).2.2 = kind ∧ end? = none := by
  intro bytes
  induction bytes with
  | nil => intro pos state end? kind h; simp_all [lexScan]
  | cons b rest ih =>
    intro pos state end? kind h
    simp only [lexScan] at h ⊢
    rcases h1 : dictGet2 trans state b with _ | state'
    · simp only [h1] at h ⊢
      simpa using h
    · simp only [h1] at h ⊢
      rcases h2 : dictGet kinds state' with _ | k
      · simp only [h2] at h ⊢
        exact ih (pos + 1) state' end? kind h
      · simp only [h2] at h ⊢
        have := (ih (pos + 1) state' (some (pos + 1)) k h).2
        simp at this

theorem lexScan_progress (trans : Dict Nat (Dict Int Nat))
    (kinds : Dict Nat String) (b : Int) (rest : List Int) (pos state : Nat)
    (h : (dictGet2 trans state b).isSome) :
    pos + 1 ≤ (lexScan trans kinds (b :: rest) pos state none "incomplete").1 := by
  simp only [lexScan]
  rcases h1 : dictGet2 trans state b with _ | state'
  · rw [h1] at h; simp at h
  · simp only [h1]
    rcases h2 : dictGet kinds state' with _ | k
    · simp only [h2]
      exact (lexScan_pos_le trans kinds rest (pos + 1) state' none "incomplete").1
    · simp only [h2]
      exact (lexScan_pos_le trans kinds rest (pos + 1) state' (some (pos + 1)) k).1

theorem lexEmit_stackWF (t : LexerTables) (ht : tablesWF t)
    (tokenPos : Nat) (mode : String) (popKind : Option String)
    (rest : List (String × Option String)) (stop : Nat) (kind : String)
    (tok : Token) (st' : LexerState)
    (hs : stackWF t ((mode, popKind) :: rest))
    (h : lexEmit t tokenPos mode popKind rest stop kind = some (tok, st')) :
    tok.pos = tokenPos ∧ tok.stop = stop ∧ tok.kind = kind ∧
      st'.pos = stop ∧ stackWF t st'.stack := by
  unfold lexEmit at h
  split at h
  case isFalse => exact absurd h (by simp)
  case isTrue hlt =>
    obtain ⟨hmodes, init, m, hinit⟩ := hs
    simp only [Option.some.injEq, Prod.mk.injEq] at h
    obtain ⟨htok, hst⟩ := h
    subst htok hst
    refine ⟨rfl, rfl, rfl, rfl, ?_⟩
    simp only
    split
    case isTrue hpop =>
      rcases init with _ | ⟨f, init'⟩
      · simp only [List.nil_append, List.cons.injEq, Prod.mk.injEq] at hinit
        exfalso
        rw [hinit.1.2] at hpop
        simp at hpop
      · simp only [List.cons_append, List.cons.injEq] at hinit
        exact ⟨fun f hf => hmodes f (List.mem_cons_of_mem _ hf), init', m, hinit.2⟩
    case isFalse hpop =>
      rcases h2 : dictGet2 t.modeTransitions mode kind with _ | fr
      · exact ⟨hmodes, init, m, hinit⟩
      · obtain ⟨m', pk'⟩ := fr
        refine ⟨?_, (m', some pk') :: init, m, by simp [hinit]⟩
        intro f hf
        rcases List.mem_cons.mp hf with hf1 | hf1
        · subst hf1
          unfold dictGet2 at h2
          rcases h3 : dictGet t.modeTransitions mode with _ | kmap
          · rw [h3] at h2; simp at h2
          · rw [h3] at h2
            exact ht.2.2 mode kmap kind (m', pk') h3 h2
        · exact hmodes f hf1

theorem lexNext_step (t : LexerTables) (text : List Int) (st : LexerState)
    (ht : tablesWF t) (hb : bytesWF text) (hpos : st.pos < text.length)
    (hs : stackWF t st.stack) :
    ∃ tok st', lexNext t text st = some (some (tok, st')) ∧
      tok.pos = st.pos ∧ st.pos < tok.stop ∧ tok.stop ≤ text.length ∧
      st'.pos = tok.stop ∧ stackWF t st'.stack := by
  obtain ⟨hmodes, init, m, hinit⟩ := hs
  rcases hst : st.stack with _ | ⟨⟨mode, popKind⟩, rest⟩
  · rw [hst] at hinit; exact absurd hinit (by simp)
  · have hmode : (dictGet t.modeData mode).isSome := by
      refine hmodes (mode, popKind) ?_
      rw [hst]; simp
    rcases hmd : dictGet t.modeData mode with _ | md
    · rw [hmd] at hmode; simp at hmode
    · have hdrop : ∃ b brest, text.drop st.pos = b :: brest := by
        rcases hd : text.drop st.pos with _ | ⟨b, brest⟩
        · have := List.drop_eq_nil_iff.mp hd
          omega
        · exact ⟨b, brest, rfl⟩
      obtain ⟨b, brest, hdropEq⟩ := hdrop
      have hbmem : b ∈ text := by
        have : b ∈ text.drop st.pos := by rw [hdropEq]; simp
        exact List.mem_of_mem_drop this
      have hbwf := hb b hbmem
      have hbtrans : (dictGet2 md.transitions md.start b).isSome :=
        ht.2.1 mode md hmd b hbwf.1 hbwf.2
      have hdropLen : (text.drop st.pos).length = text.length - st.pos := by simp
      have hlenpos : (text.drop st.pos).length > 0 := by omega
      have hswf : stackWF t ((mode, popKind) :: rest) := by
        rw [← hst]; exact ⟨hmodes, init, m, hinit⟩
      rcases hR : lexScan md.transitions md.matchNodeKinds (text.drop st.pos)
        st.pos md.start none "incomplete" with ⟨p', e?, kscan⟩
      have hple := lexScan_pos_le md.transitions md.matchNodeKinds
        (text.drop st.pos) st.pos md.start none "incomplete"
      rw [hR] at hple
      simp only at hple
      have hprog : st.pos + 1 ≤ p' := by
        have := lexScan_progress md.transitions md.matchNodeKinds b brest
          st.pos md.start hbtrans
        rw [← hdropEq, hR] at this
        exact this
      have hp'le : p' ≤ text.length := by omega
      have hgoal : lexNext t text st =
          match e? with
          | none =>
            if kscan = "incomplete" then
              (lexEmit t st.pos mode popKind rest p' kscan).map some
            else none
          | some e => (lexEmit t st.pos mode popKind rest e kscan).map some := by
        unfold lexNext
        rw [if_neg (by omega)]
        simp only [hst, hmd, hR]
        rcases e? with _ | e <;> rfl
      rcases e? with _ | e
      · have hkind := lexScan_none_kind md.transitions md.matchNodeKinds
          (text.drop st.pos) st.pos md.start none "incomplete" (by rw [hR])
        rw [hR] at hkind
        simp only at hkind
        obtain ⟨hkindEq, -⟩ := hkind
        subst hkindEq
        have hemit : ∃ tok st',
            lexEmit t st.pos mode popKind rest p' "incomplete"
            = some (tok, st') := by
          unfold lexEmit
          rw [if_pos (by omega)]
          exact ⟨_, _, rfl⟩
        obtain ⟨tok, st', hemitEq⟩ := hemit
        have hprops := lexEmit_stackWF t ht st.pos mode popKind rest p'
          "incomplete" tok st' hswf hemitEq
        refine ⟨tok, st', ?_, hprops.1, by omega, by omega, ?_, hprops.2.2.2.2⟩
        · rw [hgoal]
          simp [hemitEq]
        · rw [hprops.2.2.2.1, hprops.2.1]
      · rcases lexScan_end_cases md.transitions md.matchNodeKinds
          (text.drop st.pos) st.pos md.start none "incomplete" with hc | ⟨e', he', hlt', hle'⟩
        · rw [hR] at hc
          exact absurd hc (by simp)
        · rw [hR] at he' hle'
          simp only at he' hle'
          have heEq : e = e' := by injection he'
          subst heEq
          have hemit : ∃ tok st', lexEmit t st.pos mode popKind rest e kscan
              = some (tok, st') := by
            unfold lexEmit
            rw [if_pos (by omega)]
            exact ⟨_, _, rfl⟩
          obtain ⟨tok, st', hemitEq⟩ := hemit
          have hprops := lexEmit_stackWF t ht st.pos mode popKind rest e kscan
            tok st' hswf hemitEq
          refine ⟨tok, st', ?_, hprops.1, by omega, by omega, ?_, hprops.2.2.2.2⟩
          · rw [hgoal]
            simp [hemitEq]
          · rw [hprops.2.2.2.1, hprops.2.1]

theorem lexAll_total (t : LexerTables) (text : List Int)
    (ht : tablesWF t) (hb : bytesWF text) :
    ∀ (fuel : Nat) (st : LexerState), stackWF t st.stack →
      st.pos ≤ text.length → text.length - st.pos < fuel →
      ∃ ts, lexAll t text fuel st = some ts ∧ tokensChain text st.pos ts := by
  intro fuel
  induction fuel with
  | zero => intro st _ _ h; omega
  | succ fuel ih =>
    intro st hs hle hfuel
    by_cases hstop : st.pos = text.length
    · refine ⟨[], ?_, hstop⟩
      unfold lexAll lexNext
      rw [if_pos hstop]
    · have hpos : st.pos < text.length := by omega
      obtain ⟨tok, st', hnext, htp, hlt, htle, hsp, hswf⟩ :=
        lexNext_step t text st ht hb hpos hs
      obtain ⟨ts, hts, hchain⟩ := ih st' hswf (by omega) (by omega)
      refine ⟨tok :: ts, ?_, ?_⟩
      · unfold lexAll
        simp only [hnext, hts]
      · refine ⟨htp, by omega, htle, ?_⟩
        rw [← hsp]
        exact hchain

theorem tokensChain_join (text : List Int) :
    ∀ (ts : List Token) (p : Nat), tokensChain text p ts →
      (ts.map fun tok => (text.drop tok.pos).take (tok.stop - tok.pos)).flatten
        = text.drop p := by
  intro ts
  induction ts with
  | nil =>
    intro p hc
    simp only [tokensChain] at hc
    simp [hc]
  | cons tok ts ih =>
    intro p hc
    obtain ⟨hp, hlt, hle, hrest⟩ := hc
    simp only [List.map_cons, List.flatten_cons]
    rw [ih tok.stop hrest, hp]
    have : text.drop tok.stop = ((text.drop p).drop (tok.stop - p)) := by
      rw [List.drop_drop]
      congr 1
      omega
    rw [this, List.take_append_drop]

theorem tokensChain_pos_lt (text : List Int) :
    ∀ (ts : List Token) (p : Nat), tokensChain text p ts →
      ∀ tok ∈ ts, tok.pos < tok.stop := by
  intro ts
  induction ts with
  | nil => intro p _ tok h; simp at h
  | cons t' ts ih =>
    intro p hc tok h
    obtain ⟨hp, hlt, hle, hrest⟩ := hc
    rcases List.mem_cons.mp h with h1 | h1
    · subst h1; omega
    · exact ih t'.stop hrest tok h1

/-- C1: for every byte string, iterating the lexer from the initial state
terminates cleanly and yields tokens that exactly partition the input: the
first token starts at 0, consecutive tokens abut, every token is nonempty,
and the concatenation of the token slices is the whole text — provided the
tables are well-formed and every mode's start state has a transition on
every byte (the sink-completion invariant). -/
theorem c1_lexer_totality (t : LexerTables) (text : List Int)
    (ht : tablesWF t) (hb : bytesWF text) :
    ∃ ts, lexAll t text (text.length + 1) ⟨0, [("main", none)]⟩ = some ts ∧
      tokensChain text 0 ts ∧
      (ts.map fun tok => (text.drop tok.pos).take (tok.stop - tok.pos)).flatten
        = text ∧
      (∀ tok ∈ ts, tok.pos < tok.stop) := by
  have hs : stackWF t ([("main", none)] : List (String × Option String)) := by
    refine ⟨?_, [], "main", rfl⟩
    intro f hf
    rcases List.mem_cons.mp hf with hf1 | hf1
    · subst hf1; exact ht.1
    · simp at hf1
  obtain ⟨ts, hts, hchain⟩ := lexAll_total t text ht hb (text.length + 1)
    ⟨0, [("main", none)]⟩ hs (Nat.zero_le _)
    (by show text.length - 0 < text.length + 1; omega)
  refine ⟨ts, hts, hchain, ?_, tokensChain_pos_lt text ts 0 hchain⟩
  have := tokensChain_join text ts 0 hchain
  simpa using this

theorem mem_ndIns {α : Type} [DecidableEq α] (ltb : α → α → Bool)
    (x a : α) : ∀ s : List α, a ∈ ndIns ltb x s ↔ a = x ∨ a ∈ s := by
  intro s
  induction s with
  | nil => simp [ndIns]
  | cons y ys ih =>
    simp only [ndIns]
    split_ifs with h1 h2
    · subst h1
      simp only [List.mem_cons]
      tauto
    · simp [List.mem_cons]
    · simp only [List.mem_cons, ih]
      tauto

theorem mem_ndUnion {α : Type} [DecidableEq α] (ltb : α → α → Bool)
    (a : α) : ∀ s t : List α, a ∈ ndUnion ltb s t ↔ a ∈ s ∨ a ∈ t := by
  intro s
  induction s with
  | nil => simp [ndUnion]
  | cons y ys ih =>
    intro t
    simp only [ndUnion, List.foldr_cons]
    rw [show (List.foldr (ndIns ltb) t ys) = ndUnion ltb ys t from rfl] at *
    rw [mem_ndIns, ih]
    simp [List.mem_cons]
    tauto

theorem mem_ndDiff {α : Type} [DecidableEq α] (a : α) (s t : List α) :
    a ∈ ndDiff s t ↔ a ∈ s ∧ a ∉ t := by
  simp [ndDiff]

theorem mem_ndInter {α : Type} [DecidableEq α] (a : α) (s t : List α) :
    a ∈ ndInter s t ↔ a ∈ s ∧ a ∈ t := by
  simp [ndInter]

theorem mem_sortedItems {β : Type} (d : Dict Nat β) (p : Nat × β) :
    p ∈ sortedItems d ↔ p ∈ d :=
  (List.perm_insertionSort (fun p q => p.1 ≤ q.1) d).mem_iff

/-- C9: `validate` reports `"error: rule is trivially matched from start:
<name>."` for each entry of `matchNodeNames` whose node lies in the
ε-closure of `{0}` — one message per such entry — and returns the empty
list exactly when no named match node lies in that closure. -/
theorem c9_validate_trivial_matches (nfa : NFA) :
    (∀ node name, (node, name) ∈ nfa.matchNodeNames →
      node ∈ advance_empties nfa [0] → validateMsg name ∈ nfa.validate) ∧
    nfa.validate.length =
      (nfa.matchNodeNames.filter
        (fun p => p.1 ∈ advance_empties nfa [0])).length ∧
    (nfa.validate = [] ↔
      ∀ p ∈ nfa.matchNodeNames, p.1 ∉ advance_empties nfa [0]) := by
  refine ⟨?_, ?_, ?_⟩
  · intro node name hmem hcl
    unfold NFA.validate
    refine List.mem_map.mpr ⟨(node, name), ?_, rfl⟩
    refine List.mem_filter.mpr ⟨(mem_sortedItems nfa.matchNodeNames _).mpr hmem, ?_⟩
    simpa using hcl
  · unfold NFA.validate
    rw [List.length_map]
    exact ((List.perm_insertionSort (fun p q => p.1 ≤ q.1)
      nfa.matchNodeNames).filter _).length_eq
  · unfold NFA.validate
    rw [List.map_eq_nil_iff, List.filter_eq_nil_iff]
    constructor
    · intro h p hp
      have := h p ((mem_sortedItems nfa.matchNodeNames p).mpr hp)
      simpa using this
    · intro h p hp
      have := h p ((mem_sortedItems nfa.matchNodeNames p).mp hp)
      simpa using this

/-! ## Claim theorems: minimization renumbering (C6) and C2 evidence -/

/-- C6: at `exC6DFA` the final classes are {0}, {1}, {2,3}, {4}, but the
renumbering enumerates `partition.values()` — one entry per node, so the
class {2,3} appears twice — and the duplicate overwrites its first id:
the minimized node ids are 0, 1, 3, 4.  No class receives id 2, the ids
are not consecutive, and the class {2,3} received two ids (2, then 3).
This contradicts the claim that every class receives exactly one id and
the ids are 0, 1, 2, ... consecutively. -/
theorem c6_renumber_gap :
    (minimizeDFA exC6DFA).map
      (fun m => (dictKeys m.transitions, m.matchNodeNames)) =
      .ok ([0, 1, 3, 4], [(1, "invalid"), (4, "r")]) := by
  decide

/-! ## Claim theorems: the lexer's incomplete kind (C7) -/

/-- C7 counterexample: lexing `"ab"` with `exSubT`, the second token is
produced in mode `sub` with the input exhausted before any match, and its
kind is the literal string `"incomplete"`, not `"sub_incomplete"` as the
claim requires for a non-main mode. -/
theorem c7_counterexample :
    lexAll exSubT [97, 98] 3 ⟨0, [("main", none)]⟩ =
      some [⟨"open", 0, 1⟩, ⟨"incomplete", 1, 2⟩] ∧
    "incomplete" ≠ "sub_incomplete" := by
  decide

/-- C7 amended: when the byte loop records no match (`end` stays `None`),
the emitted token's kind is the hard-coded string `"incomplete"`,
regardless of which mode is on top of the stack — `DictLexerBase` does not
use per-mode incomplete names. -/
theorem c7_incomplete_kind (tables : LexerTables) (text : List Int)
    (st : LexerState) (tok : Token) (st' : LexerState) (mode : String)
    (popKind : Option String) (rest : List (String × Option String))
    (md : ModeData)
    (hstack : st.stack = (mode, popKind) :: rest)
    (hmd : dictGet tables.modeData mode = some md)
    (hscan : (lexScan md.transitions md.matchNodeKinds (text.drop st.pos)
      st.pos md.start none "incomplete").2.1 = none)
    (h : lexNext tables text st = some (some (tok, st'))) :
    tok.kind = "incomplete" := by
  unfold lexNext at h
  by_cases hpos : st.pos = text.length
  · rw [if_pos hpos] at h
    simp at h
  · rw [if_neg hpos] at h
    rcases hR : lexScan md.transitions md.matchNodeKinds (text.drop st.pos)
      st.pos md.start none "incomplete" with ⟨p', e?, kscan⟩
    have hkind := lexScan_none_kind md.transitions md.matchNodeKinds
      (text.drop st.pos) st.pos md.start none "incomplete" hscan
    rw [hR] at hscan
    simp only at hscan
    subst hscan
    rw [hR] at hkind
    simp only at hkind
    simp only [hstack, hmd, hR, hkind.1, if_pos rfl] at h
    rcases he : lexEmit tables st.pos mode popKind rest p' "incomplete" with _ | pr
    · rw [he] at h; simp at h
    · rw [he] at h
      simp only [if_true, Option.map_some', Option.some.injEq] at h
      unfold lexEmit at he
      split at he
      · simp only [Option.some.injEq] at he
        exact (congrArg (fun q => q.1.kind) (he.trans h)).symm
      · exact absurd he (by simp)

/-- Witness for the amended C7 theorem at a concrete run: the second step
of lexing `"ab"` with `exSubT` happens in mode `sub` with no match
recorded, and the emitted kind is `"incomplete"`. -/
theorem c7_incomplete_kind_witness :
    (⟨1, [("sub", some "close"), ("main", none)]⟩ : LexerState).stack
        = ("sub", some "close") :: [("main", none)] ∧
    dictGet exSubT.modeData "sub"
        = some ⟨0, [(0, [(98, 5), (99, 6)])], [(6, "close")]⟩ ∧
    lexNext exSubT [97, 98] ⟨1, [("sub", some "close"), ("main", none)]⟩
        = some (some (⟨"incomplete", 1, 2⟩,
            ⟨2, [("sub", some "close"), ("main", none)]⟩)) ∧
    Token.kind ⟨"incomplete", 1, 2⟩ = "incomplete" := by
  refine ⟨rfl, by decide, by decide, ?_⟩
  exact c7_incomplete_kind exSubT [97, 98]
    ⟨1, [("sub", some "close"), ("main", none)]⟩
    ⟨"incomplete", 1, 2⟩ ⟨2, [("sub", some "close"), ("main", none)]⟩
    "sub" (some "close") [("main", none)]
    ⟨0, [(0, [(98, 5), (99, 6)])], [(6, "close")]⟩
    rfl (by decide) (by decide) (by decide)

/-! ## Claim theorems: the mode-stack update (C8) -/

/-- C8: after emitting a token, exactly one of three things happens to the
stack, checked in this order: if the kind equals the top frame's pop kind
the stack is popped (the mode-transitions table is not consulted); only
otherwise, if `(mode, kind)` is in `mode_transitions`, the paired frame is
pushed; else the stack is unchanged.  Pop wins and at most one stack
operation happens per token. -/
theorem c8_mode_stack (tables : LexerTables) (text : List Int)
    (st : LexerState) (tok : Token) (st' : LexerState) (mode : String)
    (popKind : Option String) (rest : List (String × Option String))
    (hstack : st.stack = (mode, popKind) :: rest)
    (h : lexNext tables text st = some (some (tok, st'))) :
    (popKind = some tok.kind ∧ st'.stack = rest) ∨
    (popKind ≠ some tok.kind ∧
      (∃ m' pk', dictGet2 tables.modeTransitions mode tok.kind = some (m', pk') ∧
        st'.stack = (m', some pk') :: st.stack)) ∨
    (popKind ≠ some tok.kind ∧
      dictGet2 tables.modeTransitions mode tok.kind = none ∧
      st'.stack = st.stack) := by
  unfold lexNext at h
  by_cases hpos : st.pos = text.length
  · rw [if_pos hpos] at h
    simp at h
  · rw [if_neg hpos] at h
    simp only [hstack] at h
    rcases hmd : dictGet tables.modeData mode with _ | md
    · simp only [hmd] at h
      exact absurd h (by simp)
    · simp only [hmd] at h
      rcases hR : lexScan md.transitions md.matchNodeKinds (text.drop st.pos)
        st.pos md.start none "incomplete" with ⟨p', e?, kscan⟩
      simp only [hR] at h
      have hemit : ∃ stop, lexEmit tables st.pos mode popKind rest stop kscan
          = some (tok, st') := by
        rcases e? with _ | e <;> dsimp only at h
        · by_cases hk : kscan = "incomplete"
          · rw [if_pos hk] at h
            rcases he : lexEmit tables st.pos mode popKind rest p' kscan with _ | pr
            · rw [he] at h; simp at h
            · rw [he] at h
              simp only [Option.map_some', Option.some.injEq] at h
              exact ⟨p', by rw [he, h]⟩
          · rw [if_neg hk] at h; simp at h
        · rcases he : lexEmit tables st.pos mode popKind rest e kscan with _ | pr
          · rw [he] at h; simp at h
          · rw [he] at h
            simp only [Option.map_some', Option.some.injEq] at h
            exact ⟨e, by rw [he, h]⟩
      obtain ⟨stop, he⟩ := hemit
      unfold lexEmit at he
      split at he
      swap
      · exact absurd he (by simp)
      · simp only [Option.some.injEq] at he
        have hkind : tok.kind = kscan :=
          (congrArg (fun q => q.1.kind) he).symm
        subst hkind
        have hst : st'.stack =
            (if popKind = some tok.kind then rest
             else
              match dictGet2 tables.modeTransitions mode tok.kind with
              | none => (mode, popKind) :: rest
              | some (m', pk') => (m', some pk') :: (mode, popKind) :: rest) :=
          (congrArg (fun q => q.2.stack) he).symm
        by_cases hpop : popKind = some tok.kind
        · left
          rw [if_pos hpop] at hst
          exact ⟨hpop, hst⟩
        · rw [if_neg hpop] at hst
          rcases ht : dictGet2 tables.modeTransitions mode tok.kind with _ | fr
          · rw [ht] at hst
            dsimp only at hst
            right; right
            exact ⟨hpop, rfl, by rw [hst, hstack]⟩
          · obtain ⟨m', pk'⟩ := fr
            rw [ht] at hst
            dsimp only at hst
            right; left
            exact ⟨hpop, m', pk', rfl, by rw [hst, hstack]⟩

/-- Witness for the C8 theorem at a concrete pop: lexing `"ac"` with
`exSubT`, the third call emits kind `close`, which equals the top frame's
pop kind, and the frame is popped. -/
theorem c8_mode_stack_witness :
    (⟨1, [("sub", some "close"), ("main", none)]⟩ : LexerState).stack
        = ("sub", some "close") :: [("main", none)] ∧
    lexNext exSubT [97, 99] ⟨1, [("sub", some "close"), ("main", none)]⟩
        = some (some (⟨"close", 1, 2⟩, ⟨2, [("main", none)]⟩)) ∧
    ((some "close" = some (Token.kind ⟨"close", 1, 2⟩) ∧
        (⟨2, [("main", none)]⟩ : LexerState).stack = [("main", none)]) ∨
      (some "close" ≠ some (Token.kind ⟨"close", 1, 2⟩) ∧
        (∃ m' pk', dictGet2 exSubT.modeTransitions "sub"
            (Token.kind ⟨"close", 1, 2⟩) = some (m', pk') ∧
          (⟨2, [("main", none)]⟩ : LexerState).stack =
            (m', some pk') :: (⟨1, [("sub", some "close"), ("main", none)]⟩
              : LexerState).stack)) ∨
      (some "close" ≠ some (Token.kind ⟨"close", 1, 2⟩) ∧
        dictGet2 exSubT.modeTransitions "sub" (Token.kind ⟨"close", 1, 2⟩)
            = none ∧
        (⟨2, [("main", none)]⟩ : LexerState).stack =
          (⟨1, [("sub", some "close"), ("main", none)]⟩ : LexerState).stack)) := by
  refine ⟨rfl, by decide, ?_⟩
  exact c8_mode_stack exSubT [97, 99]
    ⟨1, [("sub", some "close"), ("main", none)]⟩ ⟨"close", 1, 2⟩
    ⟨2, [("main", none)]⟩ "sub" (some "close") [("main", none)]
    rfl (by decide)

/-! ## Claim theorems: sink completion (C5) counterexample -/

/-- C5 counterexample: in the fat DFA for the single rule `r = 'a'`, the
match node 2 is reachable (from the start on byte 97) but has no successor
on byte 97, and the invalid node 1 is reachable (from the start on byte
98) but has no successor on byte 97 either — its self-loops cover only the
bytes the start node does not cover.  The DFA is not complete from every
reachable node, and node 1 does not self-loop on every byte. -/
theorem c5_counterexample :
    (gen_dfa exRuleA).map
      (fun d => (dictGet2 d.transitions 0 97, dictGet2 d.transitions 0 98,
        dictGet2 d.transitions 2 97, dictGet2 d.transitions 1 97,
        dictGet2 d.transitions 1 98)) =
      .ok (some 2, some 1, none, none, some 1) := by
  decide

/-! ## Claim theorems: subset consistency (C3) counterexample -/

/-- C3 counterexample: for the rule `r = 'a'` and the input byte `'b'`,
the NFA match set is empty but the fat DFA follows the sink-completion
edge to the invalid node 1 and returns its name `invalid`, not no-match. -/
theorem c3_counterexample :
    NFA.matchB exRuleA [98] = [] ∧
    (gen_dfa exRuleA).map (fun d => d.matchB [98]) = .ok (some "invalid") ∧
    some "invalid" ≠ (none : Option String) := by
  refine ⟨by decide, by decide, by simp⟩

/-! ## Range-keyed dict lemmas and the C1 witness -/

theorem dictGet_map_keys {β : Type} (f : Int → β) (b : Int) :
    ∀ l : List Int, b ∈ l →
      dictGet (l.map (fun c => (c, f c))) b = some (f b) := by
  intro l
  induction l with
  | nil => intro h; simp at h
  | cons c l ih =>
    intro h
    simp only [List.map_cons, dictGet]
    by_cases hc : c = b
    · subst hc; simp
    · rw [if_neg hc]
      rcases List.mem_cons.mp h with h1 | h1
      · exact absurd h1.symm hc
      · exact ih h1

theorem mem_rangeBytes (b : Int) : b ∈ rangeBytes ↔ 0 ≤ b ∧ b < 256 := by
  unfold rangeBytes
  constructor
  · intro h
    obtain ⟨n, hn, rfl⟩ := List.mem_map.mp h
    have hn' : n < 256 := List.mem_range.mp hn
    omega
  · rintro ⟨h0, h1⟩
    exact List.mem_map.mpr ⟨b.toNat, List.mem_range.mpr (by omega),
      Int.toNat_of_nonneg h0⟩

theorem dictGet2_eq {α β γ : Type} [DecidableEq α] [DecidableEq β]
    (d : Dict α (Dict β γ)) (k1 : α) (k2 : β) (d2 : Dict β γ)
    (h : dictGet d k1 = some d2) : dictGet2 d k1 k2 = dictGet d2 k2 := by
  unfold dictGet2
  rw [h]

theorem exMainT_wf : tablesWF exMainT := by
  refine ⟨by decide, ?_, ?_⟩
  · intro mode md h
    unfold exMainT dictGet at h
    split at h
    case isTrue hm =>
      injection h with h2
      subst h2
      intro b hb0 hb1
      rw [dictGet2_eq exMainMD.transitions exMainMD.start b
        (rangeBytes.map (fun c => (c, if c = 97 then 2 else 1))) (by decide)]
      rw [dictGet_map_keys (fun c => if c = 97 then 2 else 1) b rangeBytes
        ((mem_rangeBytes b).mpr ⟨hb0, hb1⟩)]
      simp
    case isFalse => exact absurd h (by simp [dictGet])
  · intro mode kmap kind fr h
    exact absurd h (by simp [exMainT, dictGet])

/-- Witness for C1 at the concrete table `exMainT` and input `"ab"`: the
hypotheses hold and the lexer tiles the two bytes into the tokens
`(a, 0, 1)` and `(incomplete, 1, 2)`. -/
theorem c1_lexer_totality_witness :
    tablesWF exMainT ∧ bytesWF [97, 98] ∧
    (∃ ts, lexAll exMainT [97, 98] (([97, 98] : List Int).length + 1)
        ⟨0, [("main", none)]⟩ = some ts ∧
      tokensChain [97, 98] 0 ts ∧
      (ts.map fun tok =>
        (([97, 98] : List Int).drop tok.pos).take (tok.stop - tok.pos)).flatten
        = [97, 98] ∧
      (∀ tok ∈ ts, tok.pos < tok.stop)) := by
  refine ⟨exMainT_wf, ?_, ?_⟩
  · intro b hb
    fin_cases hb <;> constructor <;> decide
  · exact c1_lexer_totality exMainT [97, 98] exMainT_wf
      (by intro b hb; fin_cases hb <;> constructor <;> decide)

/-! ## Claim theorems: name coalescing (C4) -/

theorem strFoldMin_mem (n : String) :
    ∀ ns : List String, strFoldMin n ns = n ∨ strFoldMin n ns ∈ ns := by
  intro ns
  induction ns generalizing n with
  | nil => left; rfl
  | cons x ns ih =>
    have heq : strFoldMin n (x :: ns) =
        strFoldMin (if strLtb x n then x else n) ns := rfl
    rw [heq]
    rcases ih (if strLtb x n then x else n) with h | h
    · rw [h]
      by_cases hc : strLtb x n
      · rw [if_pos hc]; right; simp
      · rw [if_neg hc]; left; rfl
    · right; exact List.mem_cons_of_mem _ h

theorem strLtb_total (a b : String) :
    strLtb a b = true ∨ a = b ∨ strLtb b a = true := by
  unfold strLtb
  rcases lt_trichotomy a.data b.data with h | h | h
  · left; simpa using h
  · right; left
    rcases a with ⟨da⟩
    rcases b with ⟨db⟩
    exact congrArg String.mk (by simpa using h)
  · right; right; simpa using h

theorem strLtb_trans (a b c : String) (h1 : strLtb a b = true)
    (h2 : strLtb b c = true) : strLtb a c = true := by
  unfold strLtb at h1 h2 ⊢
  simp only [decide_eq_true_eq] at h1 h2 ⊢
  exact lt_trans h1 h2

theorem strFoldMin_le (n : String) :
    ∀ ns : List String, ∀ x, x = n ∨ x ∈ ns →
      strLtb (strFoldMin n ns) x = true ∨ strFoldMin n ns = x := by
  intro ns
  induction ns generalizing n with
  | nil =>
    intro x hx
    rcases hx with hx | hx
    · right; rw [hx]; rfl
    · simp at hx
  | cons y ns ih =>
    intro x hx
    have heq : strFoldMin n (y :: ns) =
        strFoldMin (if strLtb y n then y else n) ns := rfl
    rw [heq]
    have hmain : ∀ z, z = (if strLtb y n then y else n) ∨ z ∈ ns →
        strLtb (strFoldMin (if strLtb y n then y else n) ns) z = true ∨
          strFoldMin (if strLtb y n then y else n) ns = z := by
      intro z hz
      exact ih (if strLtb y n then y else n) z hz
    have hself := hmain (if strLtb y n then y else n) (Or.inl rfl)
    rcases hx with hx | hx
    · rw [hx]
      by_cases hc : strLtb y n
      · rw [if_pos hc] at hself ⊢
        rcases hself with h | h
        · left; exact strLtb_trans _ _ _ h hc
        · left; rw [h]; exact hc
      · rw [if_neg hc] at hself ⊢
        exact hself
    · rcases List.mem_cons.mp hx with hx1 | hx1
      · subst hx1
        by_cases hc : strLtb x n
        · rw [if_pos hc] at hself ⊢
          exact hself
        · rw [if_neg hc] at hself ⊢
          rcases strLtb_total x n with ht | ht | ht
          · exact absurd ht hc
          · subst ht; exact hself
          · rcases hself with h | h
            · left; exact strLtb_trans _ _ _ h ht
            · left; rw [h]; exact ht
      · exact hmain x (Or.inr hx1)

/-- C4: `matchNodeNameSets` coalescing (modelled from the spec): whenever
coalescing succeeds, the chosen name is one of the node's names; if any of
the names is a literal rule, the choice is a literal rule and is
lexicographically least among the node's literal names; if none is a
literal the node must have had exactly one name, and two or more
non-literal names at one node are a generation error.  `gen_dfa` obtains
its `matchNodeNames` — exactly one name per match node — from this
coalescing. -/
theorem c4_name_coalescing :
    (∀ (lits : List String) (names : List String) (k : String),
      coalesceNames lits names = .ok k →
      k ∈ names ∧
      (∀ l ∈ names, l ∈ lits →
        (k ∈ lits ∧ (strLtb k l = true ∨ k = l))) ∧
      ((∀ n ∈ names, n ∉ lits) → names = [k])) ∧
    (∀ (lits : List String) (names : List String),
      (∀ n ∈ names, n ∉ lits) → 2 ≤ names.length →
      ∃ e, coalesceNames lits names = .error e) ∧
    (∀ (nfa : NFA) (dfa : DFA), gen_dfa nfa = .ok dfa →
      ∃ nameSets : Dict Nat (List String),
        coalesceNameSets nfa.literalRules nameSets = .ok dfa.matchNodeNames) := by
  refine ⟨?_, ?_, ?_⟩
  · intro lits names k h
    unfold coalesceNames at h
    rcases hf : names.filter (fun n => decide (n ∈ lits)) with _ | ⟨l, ls⟩
    · rw [hf] at h
      dsimp only at h
      rcases hn : names with _ | ⟨n, ns⟩
      · rw [hn] at h; simp at h
      · rcases hns : ns with _ | ⟨n2, ns2⟩
        · rw [hn, hns] at h
          dsimp only at h
          injection h with hk
          subst hk
          refine ⟨by simp, ?_, fun _ => rfl⟩
          intro l hl hlits
          exfalso
          have hmem : l ∈ names.filter (fun n => decide (n ∈ lits)) := by
            refine List.mem_filter.mpr ⟨?_, by simpa using hlits⟩
            rw [hn, hns]
            exact hl
          rw [hf] at hmem
          simp at hmem
        · rw [hn, hns] at h
          dsimp only at h
          exact absurd h (by simp)
    · rw [hf] at h
      dsimp only at h
      injection h with hk
      subst hk
      have hminmem : strFoldMin l ls ∈ l :: ls := by
        rcases strFoldMin_mem l ls with h1 | h1
        · rw [h1]; simp
        · simp [h1]
      have hfilt : strFoldMin l ls ∈ names.filter (fun n => decide (n ∈ lits)) := by
        rw [hf]; exact hminmem
      have hmm := List.mem_filter.mp hfilt
      refine ⟨hmm.1, ?_, ?_⟩
      · intro l' hl' hlits
        refine ⟨by simpa using hmm.2, ?_⟩
        have : l' ∈ l :: ls := by
          rw [← hf]
          exact List.mem_filter.mpr ⟨hl', by simpa using hlits⟩
        exact strFoldMin_le l ls l' (List.mem_cons.mp this)
      · intro hall
        exfalso
        have : l ∈ names.filter (fun n => decide (n ∈ lits)) := by
          rw [hf]; simp
        have hm := List.mem_filter.mp this
        exact hall l hm.1 (by simpa using hm.2)
  · intro lits names hnolit hlen
    unfold coalesceNames
    have hf : names.filter (fun n => decide (n ∈ lits)) = [] := by
      rw [List.filter_eq_nil_iff]
      intro a ha
      simpa using hnolit a ha
    rw [hf]
    dsimp only
    rcases names with _ | ⟨n, _ | ⟨n2, ns2⟩⟩
    · simp at hlen
    · simp at hlen
    · exact ⟨_, rfl⟩
  · intro nfa dfa h
    simp only [gen_dfa] at h
    rcases h0 : lookupOrAlloc [] (advance_empties nfa [0]) with ⟨startNode, s2n₀⟩
    rw [h0] at h
    rcases h1 : lookupOrAlloc s2n₀ [1] with ⟨invalidNode, s2n₁⟩
    rw [h1] at h
    dsimp only at h
    rcases h2 : genLoop nfa nfa.alphabet (2 ^ (nfaSize nfa + 2) + 2) s2n₁ []
      [advance_empties nfa [0]] with _ | pr
    · rw [h2] at h; simp at h
    · rw [h2] at h
      dsimp only at h
      obtain ⟨s2n, trs⟩ := pr
      dsimp only at h
      split at h
      · simp at h
      · rcases h3 : dictSetDefault trs startNode [] with ⟨startDict, trans₁⟩
        rw [h3] at h
        dsimp only at h
        rcases h4 : dictSetDefault trans₁ invalidNode [] with ⟨invalidDict, trans₂⟩
        rw [h4] at h
        dsimp only at h
        rcases h5 : genComplete startNode invalidNode startDict invalidDict
          with ⟨startDict', invalidDict'⟩
        rw [h5] at h
        dsimp only at h
        rcases h6 : coalesceNameSets nfa.literalRules (genNameSets nfa s2n)
          with e | mnn
        · rw [h6] at h; simp at h
        · rw [h6] at h
          dsimp only at h
          injection h with hd
          refine ⟨genNameSets nfa s2n, ?_⟩
          rw [h6, ← hd]

/-- Witness for C4 at concrete inputs: coalescing `["id", "kw"]` with
literal rules `["kw"]` picks `"kw"`; two non-literal names error out; and
`gen_dfa` on `exRuleA` produces names obtainable by coalescing. -/
theorem c4_name_coalescing_witness :
    (coalesceNames ["kw"] ["id", "kw"] = Except.ok "kw" ∧
      "kw" ∈ (["id", "kw"] : List String)) ∧
    ((∀ n ∈ (["a", "b"] : List String), n ∉ ([] : List String)) ∧
      2 ≤ (["a", "b"] : List String).length ∧
      ∃ e, coalesceNames ([] : List String) ["a", "b"] = Except.error e) ∧
    (∃ dfa, gen_dfa exRuleA = Except.ok dfa ∧
      ∃ nameSets : Dict Nat (List String),
        coalesceNameSets exRuleA.literalRules nameSets =
          Except.ok dfa.matchNodeNames) := by
  have ht : (gen_dfa exRuleA).toOption ≠ none := by decide
  refine ⟨⟨by decide,
      (c4_name_coalescing.1 ["kw"] ["id", "kw"] "kw" (by decide)).1⟩,
    ⟨by decide, by decide,
      c4_name_coalescing.2.1 [] ["a", "b"] (by decide) (by decide)⟩, ?_⟩
  rcases hg : gen_dfa exRuleA with e | dfa
  · rw [hg] at ht
    exact absurd rfl ht
  · exact ⟨dfa, rfl, c4_name_coalescing.2.2 exRuleA dfa hg⟩

/-- In the ε-closure worklist loop, the expanded set only grows: anything
already expanded is in the final result. -/
theorem advanceEmptiesLoop_expanded_subset (nfa : NFA) :
    ∀ (fuel : Nat) (rem exp out : List Nat),
      advanceEmptiesLoop nfa fuel rem exp = some out → ∀ x ∈ exp, x ∈ out := by
  intro fuel
  induction fuel with
  | zero =>
    intro rem exp out h
    simp [advanceEmptiesLoop] at h
  | succ f ih =>
    intro rem exp out h x hx
    rcases rem with _ | ⟨node, rest⟩
    · simp only [advanceEmptiesLoop, Option.some.injEq] at h
      rw [← h]
      exact hx
    · simp only [advanceEmptiesLoop] at h
      rcases hd : dictGet2 nfa.transitions node (-1) with _ | dst
      · rw [hd] at h
        dsimp only at h
        exact ih rest (ndIns natLtb node exp) out h x
          ((mem_ndIns natLtb node x exp).mpr (Or.inr hx))
      · rw [hd] at h
        dsimp only at h
        exact ih _ (ndIns natLtb node exp) out h x
          ((mem_ndIns natLtb node x exp).mpr (Or.inr hx))

/-- One step of the ε-closure loop on a nonempty worklist. -/
theorem advanceEmptiesLoop_succ (nfa : NFA) (f node : Nat) (rest exp : List Nat) :
    advanceEmptiesLoop nfa (f + 1) (node :: rest) exp =
      match dictGet2 nfa.transitions node (-1) with
      | none => advanceEmptiesLoop nfa f rest (ndIns natLtb node exp)
      | some dst =>
        advanceEmptiesLoop nfa f
          (ndUnion natLtb (ndDiff dst (ndIns natLtb node exp)) rest)
          (ndIns natLtb node exp) := rfl

/-- The ε-closure of `{0}` contains node 0 whenever the worklist loop
finishes (and is the `[]` default otherwise). -/
theorem advance_empties_zero (nfa : NFA) :
    advance_empties nfa [0] = [] ∨ 0 ∈ advance_empties nfa [0] := by
  unfold advance_empties
  rw [show ([0] : List Nat).length + epsTotal nfa + 1 = 1 + epsTotal nfa + 1 from rfl]
  rw [advanceEmptiesLoop_succ]
  rcases hd : dictGet2 nfa.transitions 0 (-1) with _ | dst
  · dsimp only
    rcases h : advanceEmptiesLoop nfa (1 + epsTotal nfa) [] (ndIns natLtb 0 [])
      with _ | out
    · left
      rfl
    · right
      simp only [Option.getD_some]
      exact advanceEmptiesLoop_expanded_subset nfa _ _ _ _ h 0
        ((mem_ndIns natLtb 0 0 []).mpr (Or.inl rfl))
  · dsimp only
    rcases h : advanceEmptiesLoop nfa (1 + epsTotal nfa)
        (ndUnion natLtb (ndDiff dst (ndIns natLtb 0 [])) []) (ndIns natLtb 0 [])
      with _ | out
    · left
      rfl
    · right
      simp only [Option.getD_some]
      exact advanceEmptiesLoop_expanded_subset nfa _ _ _ _ h 0
        ((mem_ndIns natLtb 0 0 []).mpr (Or.inl rfl))

/-- The ε-closure of `{0}` is never the bare invalid marker state `[1]`,
so `gen_dfa` always allocates id 0 to the start state and id 1 to the
invalid state. -/
theorem advance_empties_ne_one (nfa : NFA) : advance_empties nfa [0] ≠ [1] := by
  rcases advance_empties_zero nfa with h | h
  · rw [h]
    simp
  · intro he
    rw [he] at h
    simp at h

/-- dictGet distributes over append: the first dict wins. -/
theorem dictGet_append {α β : Type} [DecidableEq α] (d e : Dict α β) (k : α) :
    dictGet (d ++ e) k =
      match dictGet d k with
      | some v => some v
      | none => dictGet e k := by
  induction d with
  | nil => rfl
  | cons p rest ih =>
    obtain ⟨k', v'⟩ := p
    by_cases h : k' = k
    · simp only [List.cons_append, dictGet, if_pos h]
    · simp only [List.cons_append, dictGet, if_neg h]
      exact ih

/-- dictSetDefault leaves other keys' lookups unchanged. -/
theorem dictGet_dictSetDefault_snd_ne {α β : Type} [DecidableEq α]
    (d : Dict α β) (k k' : α) (v : β) (h : k ≠ k') :
    dictGet (dictSetDefault d k v).2 k' = dictGet d k' := by
  unfold dictSetDefault
  rcases hE : dictGet d k with _ | w
  · dsimp only
    rw [dictGet_append]
    rcases hE2 : dictGet d k' with _ | w2
    · dsimp only
      unfold dictGet
      rw [if_neg h]
      rfl
    · rfl
  · dsimp only

/-- dictSetDefault returns the stored value, defaulting. -/
theorem dictSetDefault_fst {α β : Type} [DecidableEq α]
    (d : Dict α β) (k : α) (v : β) :
    (dictSetDefault d k v).1 = (dictGet d k).getD v := by
  unfold dictSetDefault
  rcases hE : dictGet d k with _ | w <;> rfl

/-- Pointwise effect of the sink-completion fold: entries already mapping
to the invalid node stay put; keys covered by the original start dict (or
outside the byte list) are untouched on both sides; uncovered listed keys
get the invalid node on both sides. -/
theorem genCompleteFold_get (sd : Dict Int Nat) (iN : Nat) :
    ∀ (l : List Int) (a b : Dict Int Nat) (c : Int),
      ((dictGet a c = some iN ∧ dictGet b c = some iN) →
        dictGet (l.foldl (genCompleteStep sd iN) (a, b)).1 c = some iN ∧
        dictGet (l.foldl (genCompleteStep sd iN) (a, b)).2 c = some iN) ∧
      (((dictGet sd c).isSome = true ∨ c ∉ l) →
        dictGet (l.foldl (genCompleteStep sd iN) (a, b)).1 c = dictGet a c ∧
        dictGet (l.foldl (genCompleteStep sd iN) (a, b)).2 c = dictGet b c) ∧
      ((dictGet sd c = none ∧ c ∈ l) →
        dictGet (l.foldl (genCompleteStep sd iN) (a, b)).1 c = some iN ∧
        dictGet (l.foldl (genCompleteStep sd iN) (a, b)).2 c = some iN) := by
  intro l
  induction l with
  | nil =>
    intro a b c
    exact ⟨fun hA => hA, fun _ => ⟨rfl, rfl⟩, fun hC => absurd hC.2 (by simp)⟩
  | cons ch l ih =>
    intro a b c
    by_cases hch : (dictGet sd ch).isSome = true
    · have hstep : (ch :: l).foldl (genCompleteStep sd iN) (a, b) =
          l.foldl (genCompleteStep sd iN) (a, b) := by
        show l.foldl (genCompleteStep sd iN) (genCompleteStep sd iN (a, b) ch) =
          l.foldl (genCompleteStep sd iN) (a, b)
        unfold genCompleteStep
        rw [if_pos hch]
      rw [hstep]
      refine ⟨fun hA => (ih a b c).1 hA, fun hB => (ih a b c).2.1 ?_, fun hC => ?_⟩
      · rcases hB with hB | hB
        · exact Or.inl hB
        · exact Or.inr fun hc => hB (List.mem_cons_of_mem ch hc)
      · rcases hC with ⟨hnone, hc⟩
        rcases List.mem_cons.mp hc with he | hc2
        · exfalso
          rw [he] at hnone
          rw [hnone] at hch
          simp at hch
        · exact (ih a b c).2.2 ⟨hnone, hc2⟩
    · have hstep : (ch :: l).foldl (genCompleteStep sd iN) (a, b) =
          l.foldl (genCompleteStep sd iN) (dictSet a ch iN, dictSet b ch iN) := by
        show l.foldl (genCompleteStep sd iN) (genCompleteStep sd iN (a, b) ch) = _
        unfold genCompleteStep
        rw [if_neg hch]
      have hnCh : dictGet sd ch = none := by
        rcases hE : dictGet sd ch with _ | w
        · rfl
        · rw [hE] at hch
          simp at hch
      rw [hstep]
      refine ⟨fun hA => ?_, fun hB => ?_, fun hC => ?_⟩
      · apply (ih (dictSet a ch iN) (dictSet b ch iN) c).1
        by_cases he : ch = c
        · subst he
          rw [dictGet_dictSet_self, dictGet_dictSet_self]
          exact ⟨rfl, rfl⟩
        · rw [dictGet_dictSet_ne a ch c iN he, dictGet_dictSet_ne b ch c iN he]
          exact hA
      · have hne : ch ≠ c := by
          intro he
          rcases hB with hB | hB
          · rw [he] at hnCh
            rw [hnCh] at hB
            simp at hB
          · refine hB ?_
            rw [← he]
            exact List.mem_cons_self ch l
        have hB' : (dictGet sd c).isSome = true ∨ c ∉ l := by
          rcases hB with hB | hB
          · exact Or.inl hB
          · exact Or.inr fun hc => hB (List.mem_cons_of_mem ch hc)
        have hmain := (ih (dictSet a ch iN) (dictSet b ch iN) c).2.1 hB'
        rw [dictGet_dictSet_ne a ch c iN hne, dictGet_dictSet_ne b ch c iN hne]
          at hmain
        exact hmain
      · rcases hC with ⟨hnone, hc⟩
        rcases List.mem_cons.mp hc with he | hc2
        · apply (ih (dictSet a ch iN) (dictSet b ch iN) c).1
          rw [he]
          rw [dictGet_dictSet_self, dictGet_dictSet_self]
          exact ⟨rfl, rfl⟩
        · exact (ih (dictSet a ch iN) (dictSet b ch iN) c).2.2 ⟨hnone, hc2⟩

/-- C5 (corrected): the claim's completeness holds only at the start node.
When `gen_dfa` succeeds, the start state has id 0 and the invalid state
id 1; sink completion makes row 0 total on all 256 bytes, and row 1
(the invalid node) self-loops exactly on the bytes the pre-completion
start row did not cover — on covered bytes the invalid row has no
transition at all, and other reachable rows are not completed
(see the counterexample). -/
theorem c5_sink_completion (nfa : NFA) (dfa : DFA)
    (h : gen_dfa nfa = Except.ok dfa) :
    ∃ startDict startDict' invalidDict' : Dict Int Nat,
      dictGet dfa.transitions 0 = some startDict' ∧
      dictGet dfa.transitions 1 = some invalidDict' ∧
      (∀ c ∈ rangeBytes, (dictGet startDict' c).isSome = true) ∧
      (∀ c ∈ rangeBytes,
        ((dictGet startDict c).isSome = true →
          dictGet startDict' c = dictGet startDict c ∧
          dictGet invalidDict' c = none) ∧
        (dictGet startDict c = none →
          dictGet startDict' c = some 1 ∧
          dictGet invalidDict' c = some 1)) := by
  have hne : advance_empties nfa [0] ≠ [1] := advance_empties_ne_one nfa
  simp only [gen_dfa] at h
  rw [show lookupOrAlloc [] (advance_empties nfa [0]) =
      (0, [(advance_empties nfa [0], 0)]) from rfl] at h
  dsimp only at h
  have h1 : lookupOrAlloc [(advance_empties nfa [0], 0)] [1] =
      (1, [(advance_empties nfa [0], 0), ([1], 1)]) := by
    unfold lookupOrAlloc
    have hg : dictGet [(advance_empties nfa [0], 0)] ([1] : List Nat) = none := by
      unfold dictGet
      rw [if_neg hne]
      rfl
    rw [hg]
    rfl
  rw [h1] at h
  dsimp only at h
  rcases h2 : genLoop nfa nfa.alphabet (2 ^ (nfaSize nfa + 2) + 2)
      [(advance_empties nfa [0], 0), ([1], 1)] [] [advance_empties nfa [0]]
    with _ | pr
  · rw [h2] at h
    simp at h
  · rw [h2] at h
    dsimp only at h
    obtain ⟨s2n, trs⟩ := pr
    dsimp only at h
    by_cases hI : (dictGet trs 1).isSome = true
    · rw [if_pos hI] at h
      simp at h
    · rw [if_neg hI] at h
      have hIn : dictGet trs 1 = none := by
        rcases hE : dictGet trs 1 with _ | v
        · rfl
        · rw [hE] at hI
          simp at hI
      rcases h3 : dictSetDefault trs 0 ([] : Dict Int Nat) with ⟨startDict, trans₁⟩
      rw [h3] at h
      dsimp only at h
      have htr1 : dictGet trans₁ 1 = none := by
        have hx := dictGet_dictSetDefault_snd_ne trs 0 1 ([] : Dict Int Nat)
          (by decide)
        rw [h3] at hx
        dsimp only at hx
        rw [hx, hIn]
      rcases h4 : dictSetDefault trans₁ 1 ([] : Dict Int Nat)
        with ⟨invalidDict, trans₂⟩
      rw [h4] at h
      dsimp only at h
      have hID : invalidDict = [] := by
        have hx := dictSetDefault_fst trans₁ 1 ([] : Dict Int Nat)
        rw [h4] at hx
        dsimp only at hx
        rw [htr1] at hx
        exact hx
      subst hID
      rcases h5 : genComplete 0 1 startDict [] with ⟨startDict', invalidDict'⟩
      rw [h5] at h
      dsimp only at h
      have hfold : rangeBytes.foldl (genCompleteStep startDict 1)
          (startDict, ([] : Dict Int Nat)) = (startDict', invalidDict') := h5
      rcases h6 : coalesceNameSets nfa.literalRules (genNameSets nfa s2n)
        with e | matchNames
      · rw [h6] at h
        simp at h
      · rw [h6] at h
        dsimp only at h
        injection h with hd
        refine ⟨startDict, startDict', invalidDict', ?_, ?_, ?_, ?_⟩
        · rw [← hd]
          dsimp only
          rw [dictGet_dictSet_ne (dictSet trans₂ 0 startDict') 1 0 invalidDict'
            (by decide)]
          exact dictGet_dictSet_self trans₂ 0 startDict'
        · rw [← hd]
          dsimp only
          exact dictGet_dictSet_self (dictSet trans₂ 0 startDict') 1 invalidDict'
        · intro c hc
          have hmm := genCompleteFold_get startDict 1 rangeBytes startDict [] c
          rw [hfold] at hmm
          dsimp only at hmm
          rcases hS : dictGet startDict c with _ | v
          · rw [(hmm.2.2 ⟨hS, hc⟩).1]
            rfl
          · rw [(hmm.2.1 (Or.inl (by rw [hS]; rfl))).1, hS]
            rfl
        · intro c hc
          have hmm := genCompleteFold_get startDict 1 rangeBytes startDict [] c
          rw [hfold] at hmm
          dsimp only at hmm
          constructor
          · intro hsome
            rcases hmm.2.1 (Or.inl hsome) with ⟨ha, hb⟩
            exact ⟨ha, hb⟩
          · intro hnone
            exact hmm.2.2 ⟨hnone, hc⟩

/-- Witness for C5 at the one-rule example NFA. -/
theorem c5_sink_completion_witness :
    ∃ dfa, gen_dfa exRuleA = Except.ok dfa ∧
      ∃ startDict startDict' invalidDict' : Dict Int Nat,
        dictGet dfa.transitions 0 = some startDict' ∧
        dictGet dfa.transitions 1 = some invalidDict' ∧
        (∀ c ∈ rangeBytes, (dictGet startDict' c).isSome = true) ∧
        (∀ c ∈ rangeBytes,
          ((dictGet startDict c).isSome = true →
            dictGet startDict' c = dictGet startDict c ∧
            dictGet invalidDict' c = none) ∧
          (dictGet startDict c = none →
            dictGet startDict' c = some 1 ∧
            dictGet invalidDict' c = some 1)) := by
  have ht : (gen_dfa exRuleA).toOption ≠ none := by decide
  rcases hg : gen_dfa exRuleA with e | dfa
  · rw [hg] at ht
    exact absurd rfl ht
  · exact ⟨dfa, rfl, c5_sink_completion exRuleA dfa hg⟩

/-! ## Dict and sorted-set lemmas used by the minimization frame proofs -/

/-- A successful lookup is a member of the association list. -/
theorem dictGet_some_mem {α β : Type} [DecidableEq α] :
    ∀ (d : Dict α β) (k : α) (v : β), dictGet d k = some v → (k, v) ∈ d := by
  intro d
  induction d with
  | nil =>
    intro k v h
    simp [dictGet] at h
  | cons p rest ih =>
    intro k v h
    obtain ⟨k', v'⟩ := p
    unfold dictGet at h
    by_cases hk : k' = k
    · rw [if_pos hk] at h
      injection h with h
      subst hk
      subst h
      exact List.mem_cons_self _ _
    · rw [if_neg hk] at h
      exact List.mem_cons_of_mem _ (ih k v h)

/-- A lookup fails exactly on the keys that are absent. -/
theorem dictGet_eq_none_iff {α β : Type} [DecidableEq α] :
    ∀ (d : Dict α β) (k : α), dictGet d k = none ↔ k ∉ dictKeys d := by
  intro d
  induction d with
  | nil =>
    intro k
    simp [dictGet, dictKeys]
  | cons p rest ih =>
    intro k
    obtain ⟨k', v'⟩ := p
    unfold dictGet
    by_cases hk : k' = k
    · rw [if_pos hk]
      subst hk
      simp [dictKeys]
    · rw [if_neg hk]
      rw [ih]
      simp only [dictKeys, List.map_cons, List.mem_cons]
      constructor
      · intro hn hc
        rcases hc with hc | hc
        · exact hk hc.symm
        · exact hn hc
      · intro hn hc
        exact hn (Or.inr hc)

/-- dictSet only adds the written key to the key set. -/
theorem mem_dictKeys_dictSet {α β : Type} [DecidableEq α] :
    ∀ (d : Dict α β) (k x : α) (v : β),
      x ∈ dictKeys (dictSet d k v) ↔ x = k ∨ x ∈ dictKeys d := by
  intro d
  induction d with
  | nil =>
    intro k x v
    simp [dictSet, dictKeys]
  | cons p rest ih =>
    intro k x v
    obtain ⟨k', v'⟩ := p
    unfold dictSet
    by_cases hk : k' = k
    · rw [if_pos hk]
      subst hk
      simp only [dictKeys, List.map_cons, List.mem_cons]
      constructor
      · rintro (h | h)
        · exact Or.inl h
        · exact Or.inr (Or.inr h)
      · rintro (h | h | h)
        · exact Or.inl h
        · exact Or.inl h
        · exact Or.inr h
    · rw [if_neg hk]
      simp only [dictKeys, List.map_cons, List.mem_cons]
      rw [show List.map Prod.fst (dictSet rest k v) = dictKeys (dictSet rest k v)
        from rfl]
      rw [ih]
      constructor
      · rintro (h | h | h)
        · exact Or.inr (Or.inl h)
        · exact Or.inl h
        · exact Or.inr (Or.inr h)
      · rintro (h | h | h)
        · exact Or.inr (Or.inl h)
        · exact Or.inl h
        · exact Or.inr (Or.inr h)

/-- dictSet preserves key distinctness. -/
theorem nodupKeys_dictSet {α β : Type} [DecidableEq α] :
    ∀ (d : Dict α β) (k : α) (v : β),
      (dictKeys d).Nodup → (dictKeys (dictSet d k v)).Nodup := by
  intro d
  induction d with
  | nil =>
    intro k v _
    simp [dictSet, dictKeys]
  | cons p rest ih =>
    intro k v h
    obtain ⟨k', v'⟩ := p
    simp only [dictKeys, List.map_cons, List.nodup_cons] at h
    unfold dictSet
    by_cases hk : k' = k
    · rw [if_pos hk]
      simp only [dictKeys, List.map_cons, List.nodup_cons]
      exact h
    · rw [if_neg hk]
      simp only [dictKeys, List.map_cons, List.nodup_cons]
      refine ⟨?_, ih k v h.2⟩
      intro hc
      rw [show List.map Prod.fst (dictSet rest k v) = dictKeys (dictSet rest k v)
        from rfl] at hc
      rcases (mem_dictKeys_dictSet rest k k' v).mp hc with hc | hc
      · exact hk hc
      · exact h.1 hc

/-- With distinct keys, membership determines the lookup. -/
theorem dictGet_of_mem_nodup {α β : Type} [DecidableEq α] :
    ∀ (d : Dict α β) (k : α) (v : β),
      (k, v) ∈ d → (dictKeys d).Nodup → dictGet d k = some v := by
  intro d
  induction d with
  | nil =>
    intro k v h
    simp at h
  | cons p rest ih =>
    intro k v h hn
    obtain ⟨k', v'⟩ := p
    simp only [dictKeys, List.map_cons, List.nodup_cons] at hn
    rcases List.mem_cons.mp h with h1 | h1
    · injection h1 with e1 e2
      subst e1
      subst e2
      unfold dictGet
      rw [if_pos rfl]
    · unfold dictGet
      by_cases hk : k' = k
      · exfalso
        subst hk
        exact hn.1 (List.mem_map.mpr ⟨(k', v), h1, rfl⟩)
      · rw [if_neg hk]
        exact ih k v h1 hn.2

/-- Every member of dictSet is the written pair or an old member. -/
theorem mem_dictSet_sub {α β : Type} [DecidableEq α] :
    ∀ (d : Dict α β) (k : α) (v : β) (p : α × β),
      p ∈ dictSet d k v → p = (k, v) ∨ p ∈ d := by
  intro d
  induction d with
  | nil =>
    intro k v p h
    simp [dictSet] at h
    exact Or.inl h
  | cons q rest ih =>
    intro k v p h
    obtain ⟨k', v'⟩ := q
    unfold dictSet at h
    by_cases hk : k' = k
    · rw [if_pos hk] at h
      subst hk
      rcases List.mem_cons.mp h with h1 | h1
      · exact Or.inl h1
      · exact Or.inr (List.mem_cons_of_mem _ h1)
    · rw [if_neg hk] at h
      rcases List.mem_cons.mp h with h1 | h1
      · exact Or.inr (List.mem_cons.mpr (Or.inl h1))
      · rcases ih k v p h1 with h2 | h2
        · exact Or.inl h2
        · exact Or.inr (List.mem_cons_of_mem _ h2)

/-- Every member of dictSetDefault's dict is the default pair or an old
member. -/
theorem mem_dictSetDefault_sub {α β : Type} [DecidableEq α]
    (d : Dict α β) (k : α) (v : β) (p : α × β)
    (h : p ∈ (dictSetDefault d k v).2) : p = (k, v) ∨ p ∈ d := by
  unfold dictSetDefault at h
  rcases hE : dictGet d k with _ | w
  · rw [hE] at h
    dsimp only at h
    rcases List.mem_append.mp h with h1 | h1
    · exact Or.inr h1
    · simp at h1
      exact Or.inl h1
  · rw [hE] at h
    dsimp only at h
    exact Or.inr h

/-- dictSetDefault preserves key distinctness. -/
theorem nodupKeys_dictSetDefault {α β : Type} [DecidableEq α]
    (d : Dict α β) (k : α) (v : β) (h : (dictKeys d).Nodup) :
    (dictKeys (dictSetDefault d k v).2).Nodup := by
  unfold dictSetDefault
  rcases hE : dictGet d k with _ | w
  · dsimp only
    have hk : k ∉ dictKeys d := (dictGet_eq_none_iff d k).mp hE
    simp only [dictKeys, List.map_append, List.map_cons, List.map_nil]
    rw [List.nodup_append]
    refine ⟨h, List.nodup_singleton k, ?_⟩
    intro a ha hb
    simp at hb
    subst hb
    exact hk ha
  · dsimp only
    exact h

/-- Folding constant-valued dictSets over a list: listed keys read the
constant, others are untouched. -/
theorem dictGet_foldl_dictSet_const {α β : Type} [DecidableEq α] :
    ∀ (part : List α) (m0 : Dict α β) (c : β) (x : α),
      dictGet (part.foldl (fun m old => dictSet m old c) m0) x =
        if x ∈ part then some c else dictGet m0 x := by
  intro part
  induction part with
  | nil =>
    intro m0 c x
    simp
  | cons y part ih =>
    intro m0 c x
    rw [show (y :: part).foldl (fun m old => dictSet m old c) m0 =
      part.foldl (fun m old => dictSet m old c) (dictSet m0 y c) from rfl]
    rw [ih]
    by_cases hx : x ∈ part
    · rw [if_pos hx, if_pos (List.mem_cons_of_mem y hx)]
    · rw [if_neg hx]
      by_cases hxy : x = y
      · subst hxy
        rw [if_pos (List.mem_cons_self x part)]
        exact dictGet_dictSet_self m0 x c
      · rw [if_neg (fun hc => by
          rcases List.mem_cons.mp hc with h1 | h1
          · exact hxy h1
          · exact hx h1)]
        exact dictGet_dictSet_ne m0 y x c (fun he => hxy he.symm)

/-- Folding constant-valued dictSets preserves key distinctness. -/
theorem nodupKeys_foldl_dictSet_const {α β : Type} [DecidableEq α] :
    ∀ (part : List α) (m0 : Dict α β) (c : β),
      (dictKeys m0).Nodup →
      (dictKeys (part.foldl (fun m old => dictSet m old c) m0)).Nodup := by
  intro part
  induction part with
  | nil =>
    intro m0 c h
    exact h
  | cons y part ih =>
    intro m0 c h
    exact ih (dictSet m0 y c) c (nodupKeys_dictSet m0 y c h)

/-- Membership in an `ndIns`-fold image set. -/
theorem mem_foldr_ndIns {α γ : Type} [DecidableEq α] (ltb : α → α → Bool)
    (f : γ → α) :
    ∀ (l : List γ) (x : α),
      x ∈ l.foldr (fun p acc => ndIns ltb (f p) acc) [] ↔ ∃ p ∈ l, f p = x := by
  intro l
  induction l with
  | nil =>
    intro x
    simp
  | cons q l ih =>
    intro x
    rw [show (q :: l).foldr (fun p acc => ndIns ltb (f p) acc) [] =
      ndIns ltb (f q) (l.foldr (fun p acc => ndIns ltb (f p) acc) []) from rfl]
    rw [mem_ndIns, ih]
    constructor
    · rintro (h | ⟨p, hp, he⟩)
      · exact ⟨q, List.mem_cons_self q l, h.symm⟩
      · exact ⟨p, List.mem_cons_of_mem q hp, he⟩
    · rintro ⟨p, hp, he⟩
      rcases List.mem_cons.mp hp with h1 | h1
      · subst h1
        exact Or.inl he.symm
      · exact Or.inr ⟨p, h1, he⟩

/-- ndIns with the Nat order keeps a strictly ascending list strictly
ascending. -/
theorem pairwise_ndIns_nat (x : Nat) :
    ∀ (l : List Nat), l.Pairwise (fun a b => natLtb a b = true) →
      (ndIns natLtb x l).Pairwise (fun a b => natLtb a b = true) := by
  intro l
  induction l with
  | nil =>
    intro _
    simp [ndIns]
  | cons y ys ih =>
    intro h
    unfold ndIns
    by_cases hxy : x = y
    · rw [if_pos hxy]
      exact h
    · rw [if_neg hxy]
      by_cases hlt : natLtb x y
      · rw [if_pos hlt]
        refine List.Pairwise.cons ?_ h
        intro b hb
        rcases List.mem_cons.mp hb with h1 | h1
        · subst h1
          exact hlt
        · have hyb := (List.pairwise_cons.mp h).1 b h1
          unfold natLtb at hlt hyb ⊢
          simp only [decide_eq_true_eq] at hlt hyb ⊢
          omega
      · rw [if_neg hlt]
        have hyx : natLtb y x = true := by
          unfold natLtb at hlt ⊢
          simp only [decide_eq_true_eq] at hlt ⊢
          omega
        rcases List.pairwise_cons.mp h with ⟨hy, hys⟩
        refine List.Pairwise.cons ?_ (ih hys)
        intro b hb
        rcases (mem_ndIns natLtb x b ys).mp hb with h1 | h1
        · subst h1
          exact hyx
        · exact hy b h1

/-- The match-node set is strictly ascending, hence duplicate-free. -/
theorem matchNodes_pairwise (dfa : DFA) :
    dfa.matchNodes.Pairwise (fun a b => natLtb a b = true) := by
  unfold DFA.matchNodes
  induction dfa.matchNodeNames with
  | nil => simp
  | cons p rest ih =>
    exact pairwise_ndIns_nat p.1 _ ih

/-- The match-node set has no duplicates. -/
theorem matchNodes_nodup (dfa : DFA) : dfa.matchNodes.Nodup := by
  refine List.Pairwise.imp ?_ (matchNodes_pairwise dfa)
  intro a b h
  unfold natLtb at h
  simp only [decide_eq_true_eq] at h
  omega

/-- Lookup in the enumerated token store reads the indexed set. -/
theorem dictGet_enumStore :
    ∀ (sets : List (List Nat)) (i0 tok : Nat),
      dictGet ((sets.zip (List.range' i0 sets.length)).map
        (fun p => (p.2, p.1))) tok =
        if i0 ≤ tok then sets.get? (tok - i0) else none := by
  intro sets
  induction sets with
  | nil =>
    intro i0 tok
    by_cases h : i0 ≤ tok
    · rw [if_pos h]
      rfl
    · rw [if_neg h]
      rfl
  | cons s sets ih =>
    intro i0 tok
    rw [show List.range' i0 (s :: sets).length =
      i0 :: List.range' (i0 + 1) sets.length from rfl]
    rw [show ((s :: sets).zip (i0 :: List.range' (i0 + 1) sets.length)).map
        (fun p => (p.2, p.1)) =
      (i0, s) :: (sets.zip (List.range' (i0 + 1) sets.length)).map
        (fun p => (p.2, p.1)) from rfl]
    unfold dictGet
    by_cases h0 : i0 = tok
    · rw [if_pos h0]
      subst h0
      rw [if_pos (Nat.le_refl i0), Nat.sub_self]
      rfl
    · rw [if_neg h0, ih]
      by_cases hle : i0 + 1 ≤ tok
      · rw [if_pos hle, if_pos (by omega)]
        rw [show tok - i0 = (tok - (i0 + 1)) + 1 from by omega]
        rfl
      · rw [if_neg hle, if_neg (by omega)]

/-- The initial store's lookup at a token is the indexed initial set. -/
theorem dictGet_initStore (sets : List (List Nat)) (tok : Nat) :
    dictGet ((sets.zip (List.range sets.length)).map (fun p => (p.2, p.1)))
      tok = sets.get? tok := by
  rw [List.range_eq_range', dictGet_enumStore, if_pos (Nat.zero_le tok),
    Nat.sub_zero]

/-- The initial store's keys are the token range, hence distinct. -/
theorem nodupKeys_initStore (sets : List (List Nat)) :
    (dictKeys ((sets.zip (List.range sets.length)).map
      (fun p => (p.2, p.1)))).Nodup := by
  have hk : dictKeys ((sets.zip (List.range sets.length)).map
      (fun p => (p.2, p.1))) = (sets.zip (List.range sets.length)).map
      (fun p => p.2) := by
    unfold dictKeys
    rw [List.map_map]
    rfl
  rw [hk]
  have hz : (sets.zip (List.range sets.length)).map (fun p => p.2) =
      List.range sets.length := by
    rw [show (fun p : List Nat × Nat => p.2) = Prod.snd from rfl]
    exact List.map_snd_zip sets (List.range sets.length)
      (by rw [List.length_range])
  rw [hz]
  exact List.nodup_range sets.length

/-- Pointwise behaviour of the partition-building fold: a node absent from
every listed set keeps its old token; a node all of whose listed sets carry
token `t` (and which occurs, or already read `t`) reads `t`; and a
successful lookup comes from a listed set or from the initial dict. -/
theorem pf_get :
    ∀ (entries : List (Nat × List Nat)) (acc0 : Dict Nat Nat) (x : Nat),
      ((∀ p ∈ entries, x ∉ p.2) →
        dictGet (entries.foldl
          (fun acc p => p.2.foldl (fun a2 v => dictSet a2 v p.1) acc) acc0) x =
          dictGet acc0 x) ∧
      (∀ t : Nat, (∀ p ∈ entries, x ∈ p.2 → p.1 = t) →
        ((∃ p ∈ entries, x ∈ p.2) ∨ dictGet acc0 x = some t) →
        dictGet (entries.foldl
          (fun acc p => p.2.foldl (fun a2 v => dictSet a2 v p.1) acc) acc0) x =
          some t) ∧
      (∀ t : Nat, dictGet (entries.foldl
          (fun acc p => p.2.foldl (fun a2 v => dictSet a2 v p.1) acc) acc0) x =
          some t →
        (∃ p ∈ entries, x ∈ p.2 ∧ p.1 = t) ∨ dictGet acc0 x = some t) := by
  intro entries
  induction entries with
  | nil =>
    intro acc0 x
    exact ⟨fun _ => rfl, fun t _ hex => by
      rcases hex with ⟨p, hp, _⟩ | h
      · simp at hp
      · exact h, fun t h => Or.inr h⟩
  | cons e entries ih =>
    intro acc0 x
    rw [show (e :: entries).foldl
        (fun acc p => p.2.foldl (fun a2 v => dictSet a2 v p.1) acc) acc0 =
      entries.foldl (fun acc p => p.2.foldl (fun a2 v => dictSet a2 v p.1) acc)
        (e.2.foldl (fun a2 v => dictSet a2 v e.1) acc0) from rfl]
    have hin : dictGet (e.2.foldl (fun a2 v => dictSet a2 v e.1) acc0) x =
        if x ∈ e.2 then some e.1 else dictGet acc0 x :=
      dictGet_foldl_dictSet_const e.2 acc0 e.1 x
    refine ⟨?_, ?_, ?_⟩
    · intro hall
      have hxe : x ∉ e.2 := hall e (List.mem_cons_self e entries)
      rw [(ih _ x).1 (fun p hp => hall p (List.mem_cons_of_mem e hp)), hin,
        if_neg hxe]
    · intro t hall hex
      by_cases hxe : x ∈ e.2
      · refine (ih _ x).2.1 t
          (fun p hp => hall p (List.mem_cons_of_mem e hp)) (Or.inr ?_)
        rw [hin, if_pos hxe, hall e (List.mem_cons_self e entries) hxe]
      · rcases hex with ⟨p, hp, hxp⟩ | h0
        · rcases List.mem_cons.mp hp with h1 | h1
          · exact absurd (h1 ▸ hxp) hxe
          · exact (ih _ x).2.1 t
              (fun p hp => hall p (List.mem_cons_of_mem e hp))
              (Or.inl ⟨p, h1, hxp⟩)
        · refine (ih _ x).2.1 t
            (fun p hp => hall p (List.mem_cons_of_mem e hp)) (Or.inr ?_)
          rw [hin, if_neg hxe]
          exact h0
    · intro t h
      rcases (ih _ x).2.2 t h with ⟨p, hp, hxp, hpt⟩ | h0
      · exact Or.inl ⟨p, List.mem_cons_of_mem e hp, hxp, hpt⟩
      · rw [hin] at h0
        by_cases hxe : x ∈ e.2
        · rw [if_pos hxe] at h0
          injection h0 with h0
          exact Or.inl ⟨e, List.mem_cons_self e entries, hxe, h0⟩
        · rw [if_neg hxe] at h0
          exact Or.inr h0

/-- The partition-building fold preserves key distinctness. -/
theorem pf_nodup :
    ∀ (entries : List (Nat × List Nat)) (acc0 : Dict Nat Nat),
      (dictKeys acc0).Nodup →
      (dictKeys (entries.foldl
        (fun acc p => p.2.foldl (fun a2 v => dictSet a2 v p.1) acc)
          acc0)).Nodup := by
  intro entries
  induction entries with
  | nil =>
    intro acc0 h
    exact h
  | cons e entries ih =>
    intro acc0 h
    exact ih _ (nodupKeys_foldl_dictSet_const e.2 acc0 e.1 h)

/-- initSets has one entry per match node plus the non-match set. -/
theorem initSets_length (dfa : DFA) :
    (initSets dfa).length = dfa.matchNodes.length + 1 := by
  simp [initSets]

/-- Indexing initSets below the match count gives a match singleton. -/
theorem initSets_get_lt (dfa : DFA) (j : Nat)
    (hj : j < dfa.matchNodes.length) :
    (initSets dfa).get? j = some [dfa.matchNodes.get ⟨j, hj⟩] := by
  unfold initSets
  rw [List.get?_append (by rw [List.length_map]; exact hj)]
  rw [List.get?_map]
  rw [List.get?_eq_get hj]
  rfl

/-- Indexing initSets at the match count gives the non-match set. -/
theorem initSets_get_last (dfa : DFA) :
    (initSets dfa).get? dfa.matchNodes.length = some dfa.nonMatchNodes := by
  unfold initSets
  rw [List.get?_append_right (by rw [List.length_map])]
  rw [List.length_map, Nat.sub_self]
  rfl

/-- dictSetDefault's dict afterwards holds the defaulted value at its key. -/
theorem dictGet_dictSetDefault_snd_self {α β : Type} [DecidableEq α]
    (d : Dict α β) (k : α) (v : β) :
    dictGet (dictSetDefault d k v).2 k = some ((dictGet d k).getD v) := by
  unfold dictSetDefault
  rcases hE : dictGet d k with _ | w
  · dsimp only
    rw [dictGet_append, hE]
    dsimp only
    unfold dictGet
    rw [if_pos rfl]
    rfl
  · dsimp only
    rw [hE]
    rfl

/-- A strictly ascending Nat list has no duplicates. -/
theorem pairwise_natLtb_nodup (l : List Nat)
    (h : l.Pairwise (fun a b => natLtb a b = true)) : l.Nodup := by
  refine List.Pairwise.imp ?_ h
  intro a b hab
  unfold natLtb at hab
  simp only [decide_eq_true_eq] at hab
  omega

/-- The group-building fold of `refine` keeps every stored group a
nonempty ascending list of nodes of its token's class, with distinct
group keys. -/
theorem refineGroups_fold_spec (partition : Dict Nat Nat) :
    ∀ (rs : List Nat) (acc : Dict Nat (List Nat)),
      (∀ tok l, dictGet acc tok = some l →
        l ≠ [] ∧ l.Pairwise (fun a b => natLtb a b = true) ∧
        ∀ x ∈ l, dictGet partition x = some tok) →
      (dictKeys acc).Nodup →
      (∀ tok l, dictGet (rs.foldl
        (fun acc node =>
          match dictGet partition node with
          | none => acc
          | some tok =>
            match dictSetDefault acc tok [] with
            | (cur, acc2) => dictSet acc2 tok (ndIns natLtb node cur)) acc)
          tok = some l →
        l ≠ [] ∧ l.Pairwise (fun a b => natLtb a b = true) ∧
        ∀ x ∈ l, dictGet partition x = some tok) ∧
      (dictKeys (rs.foldl
        (fun acc node =>
          match dictGet partition node with
          | none => acc
          | some tok =>
            match dictSetDefault acc tok [] with
            | (cur, acc2) => dictSet acc2 tok (ndIns natLtb node cur))
        acc)).Nodup := by
  intro rs
  induction rs with
  | nil =>
    intro acc hacc hnd
    exact ⟨hacc, hnd⟩
  | cons node rs ih =>
    intro acc hacc hnd
    rw [List.foldl_cons]
    dsimp only
    rcases hp : dictGet partition node with _ | tok'
    · exact ih acc hacc hnd
    · dsimp only
      rcases hsd : dictSetDefault acc tok' ([] : List Nat) with ⟨cur, acc2⟩
      dsimp only
      have hcur : cur = (dictGet acc tok').getD [] := by
        have hx := dictSetDefault_fst acc tok' ([] : List Nat)
        rw [hsd] at hx
        dsimp only at hx
        exact hx
      have hacc2ne : ∀ k, tok' ≠ k → dictGet acc2 k = dictGet acc k := by
        intro k hk
        have hx := dictGet_dictSetDefault_snd_ne acc tok' k ([] : List Nat) hk
        rw [hsd] at hx
        exact hx
      have hacc2nd : (dictKeys acc2).Nodup := by
        have hx := nodupKeys_dictSetDefault acc tok' ([] : List Nat) hnd
        rw [hsd] at hx
        exact hx
      refine ih (dictSet acc2 tok' (ndIns natLtb node cur)) ?_
        (nodupKeys_dictSet acc2 tok' _ hacc2nd)
      intro tok l hl
      by_cases ht : tok = tok'
      · subst ht
        rw [dictGet_dictSet_self] at hl
        injection hl with hl
        subst hl
        have hcurPW : cur.Pairwise (fun a b => natLtb a b = true) := by
          rcases hw : dictGet acc tok with _ | w
          · rw [hw] at hcur
            rw [hcur]
            exact List.Pairwise.nil
          · rw [hw] at hcur
            simp only [Option.getD_some] at hcur
            rw [hcur]
            exact (hacc tok w hw).2.1
        refine ⟨List.ne_nil_of_mem ((mem_ndIns natLtb node node cur).mpr
          (Or.inl rfl)), pairwise_ndIns_nat node cur hcurPW, ?_⟩
        intro x hx
        rcases (mem_ndIns natLtb node x cur).mp hx with hx1 | hx1
        · subst hx1
          exact hp
        · rcases hw : dictGet acc tok with _ | w
          · rw [hw] at hcur
            rw [hcur] at hx1
            simp at hx1
          · rw [hw] at hcur
            simp only [Option.getD_some] at hcur
            exact (hacc tok w hw).2.2 x (hcur ▸ hx1)
      · rw [dictGet_dictSet_ne acc2 tok' tok _ (fun he => ht he.symm)] at hl
        rw [hacc2ne tok (fun he => ht he.symm)] at hl
        exact hacc tok l hl

/-- Every group of `refineGroups` is a nonempty duplicate-free set of
nodes of its token's class. -/
theorem refineGroups_groups (partition : Dict Nat Nat) (ds : List Nat) :
    ∀ p ∈ refineGroups partition ds,
      p.2 ≠ [] ∧ p.2.Nodup ∧ ∀ x ∈ p.2, dictGet partition x = some p.1 := by
  intro p hp
  unfold refineGroups at hp
  have haux := refineGroups_fold_spec partition ds []
    (fun tok l hl => by simp [dictGet] at hl) (by simp [dictKeys])
  have hget := dictGet_of_mem_nodup _ p.1 p.2 hp haux.2
  have hspec := haux.1 p.1 p.2 hget
  exact ⟨hspec.1, pairwise_natLtb_nodup p.2 hspec.2.1, hspec.2.2⟩

/-- refineApplyStep on an unknown token is the identity. -/
theorem refineApplyStep_none (st : PartAcc × List (Nat × Nat))
    (g : Nat × List Nat) (h : dictGet st.1.store g.1 = none) :
    refineApplyStep st g = st := by
  unfold refineApplyStep
  rw [h]

/-- refineApplyStep on a group equal to its class is the identity. -/
theorem refineApplyStep_skip (st : PartAcc × List (Nat × Nat))
    (g : Nat × List Nat) (s : List Nat)
    (h : dictGet st.1.store g.1 = some s) (hgs : g.2 = s) :
    refineApplyStep st g = st := by
  unfold refineApplyStep
  rw [h]
  dsimp only
  rw [if_pos hgs]

/-- refineApplyStep on a proper subgroup performs the split. -/
theorem refineApplyStep_split (st : PartAcc × List (Nat × Nat))
    (g : Nat × List Nat) (s : List Nat)
    (h : dictGet st.1.store g.1 = some s) (hgs : ¬ g.2 = s) :
    refineApplyStep st g =
      (⟨dictSet (dictSet st.1.store g.1 (ndDiff s g.2)) st.1.nextTok g.2,
        g.2.foldl (fun pp x => dictSet pp x st.1.nextTok) st.1.partition,
        st.1.nextTok + 1⟩, st.2 ++ [(st.1.nextTok, g.1)]) := by
  unfold refineApplyStep
  rw [h]
  dsimp only
  rw [if_neg hgs]

/-- One pass of `refine`'s split loop preserves the match-singleton
invariant: a singleton class is never split, and fresh tokens never
collide with the match node's token. -/
theorem refineApply_fold_preserves (n tokn : Nat)
    (origPartition : Dict Nat Nat)
    (horig : ∀ v, dictGet origPartition v = some tokn → v = n)
    (horign : dictGet origPartition n = some tokn) :
    ∀ (groups : List (Nat × List Nat)) (st : PartAcc × List (Nat × Nat)),
      (∀ p ∈ groups, p.2 ≠ [] ∧ p.2.Nodup ∧
        ∀ x ∈ p.2, dictGet origPartition x = some p.1) →
      MInvP n tokn st.1 →
      MInvP n tokn (groups.foldl refineApplyStep st).1 := by
  intro groups
  induction groups with
  | nil =>
    intro st _ hinv
    exact hinv
  | cons g groups ih =>
    intro st hg hinv
    rw [List.foldl_cons]
    have hgtail : ∀ p ∈ groups, p.2 ≠ [] ∧ p.2.Nodup ∧
        ∀ x ∈ p.2, dictGet origPartition x = some p.1 :=
      fun p hp => hg p (List.mem_cons_of_mem g hp)
    obtain ⟨hne, hnd, hmem⟩ := hg g (List.mem_cons_self g groups)
    rcases hs : dictGet st.1.store g.1 with _ | s
    · rw [refineApplyStep_none st g hs]
      exact ih st hgtail hinv
    · by_cases hgs : g.2 = s
      · rw [refineApplyStep_skip st g s hs hgs]
        exact ih st hgtail hinv
      · rw [refineApplyStep_split st g s hs hgs]
        by_cases hng : n ∈ g.2
        · exfalso
          have hgtok : g.1 = tokn := by
            have hx := hmem n hng
            rw [horign] at hx
            injection hx with hx
            exact hx.symm
          have hsn : s = [n] := by
            have h2 := hinv.2.1
            rw [← hgtok] at h2
            rw [hs] at h2
            exact Option.some.inj h2
          have hall : ∀ x ∈ g.2, x = n := fun x hx =>
            horig x (hgtok ▸ hmem x hx)
          have hg2n : g.2 = [n] := by
            rcases g2 : g.2 with _ | ⟨a, rest⟩
            · exact absurd g2 hne
            · have ha : a = n := hall a (by rw [g2]; exact List.mem_cons_self a rest)
              rcases rest with _ | ⟨b, rest2⟩
              · rw [ha]
              · have hb : b = n := hall b (by rw [g2]; simp)
                exfalso
                have hnd2 := hnd
                rw [g2, ha, hb] at hnd2
                simp at hnd2
          exact hgs (hg2n.trans hsn.symm)
        · refine ih _ hgtail ?_
          have htokne : tokn ≠ g.1 := by
            intro he
            have h2 := hinv.2.1
            rw [he] at h2
            rw [hs] at h2
            injection h2 with h2
            rcases g2 : g.2 with _ | ⟨a, rest⟩
            · exact hne g2
            · have ha := hmem a (by rw [g2]; exact List.mem_cons_self a rest)
              rw [← he] at ha
              have han := horig a ha
              apply hng
              rw [g2, han]
              exact List.mem_cons_self n rest
          have htoknlt : tokn < st.1.nextTok :=
            hinv.2.2.2.2.1 tokn (by rw [hinv.2.1]; rfl)
          have hg1lt : g.1 < st.1.nextTok :=
            hinv.2.2.2.2.1 g.1 (by rw [hs]; rfl)
          refine ⟨?_, ?_, ?_, ?_, ?_, ?_⟩
          · dsimp only
            rw [dictGet_foldl_dictSet_const, if_neg hng]
            exact hinv.1
          · dsimp only
            rw [dictGet_dictSet_ne _ _ _ _ (by omega : st.1.nextTok ≠ tokn)]
            rw [dictGet_dictSet_ne _ _ _ _ (fun he => htokne he.symm)]
            exact hinv.2.1
          · dsimp only
            intro tok l hl hnl
            by_cases h1 : st.1.nextTok = tok
            · subst h1
              rw [dictGet_dictSet_self] at hl
              injection hl with hl
              subst hl
              exact absurd hnl hng
            · rw [dictGet_dictSet_ne _ _ _ _ h1] at hl
              by_cases h2 : g.1 = tok
              · subst h2
                rw [dictGet_dictSet_self] at hl
                injection hl with hl
                subst hl
                have hns := (mem_ndDiff n s g.2).mp hnl
                have h3 := hinv.2.2.1 g.1 s hs hns.1
                exact absurd h3.1.symm htokne
              · rw [dictGet_dictSet_ne _ _ _ _ h2] at hl
                exact hinv.2.2.1 tok l hl hnl
          · dsimp only
            intro v hv
            rw [dictGet_foldl_dictSet_const] at hv
            by_cases hvg : v ∈ g.2
            · rw [if_pos hvg] at hv
              injection hv with hv
              omega
            · rw [if_neg hvg] at hv
              exact hinv.2.2.2.1 v hv
          · dsimp only
            intro tok hiS
            by_cases h1 : st.1.nextTok = tok
            · omega
            · rw [dictGet_dictSet_ne _ _ _ _ h1] at hiS
              by_cases h2 : g.1 = tok
              · omega
              · rw [dictGet_dictSet_ne _ _ _ _ h2] at hiS
                have := hinv.2.2.2.2.1 tok hiS
                omega
          · dsimp only
            exact nodupKeys_foldl_dictSet_const g.2 st.1.partition st.1.nextTok
              hinv.2.2.2.2.2

/-- refineApply preserves the match-singleton invariant. -/
theorem refineApply_preserves (n tokn : Nat) (origPartition : Dict Nat Nat)
    (horig : ∀ v, dictGet origPartition v = some tokn → v = n)
    (horign : dictGet origPartition n = some tokn)
    (groups : List (Nat × List Nat)) (acc : PartAcc)
    (hg : ∀ p ∈ groups, p.2 ≠ [] ∧ p.2.Nodup ∧
      ∀ x ∈ p.2, dictGet origPartition x = some p.1)
    (hinv : MInvP n tokn acc) :
    MInvP n tokn (refineApply groups acc).1 := by
  unfold refineApply
  exact refineApply_fold_preserves n tokn origPartition horig horign groups
    (acc, []) hg hinv

/-- The byte loop of minimization preserves the match-singleton
invariant. -/
theorem minChars_preserves (rev : Dict Nat (Dict Int (List Nat)))
    (aTok n tokn : Nat) :
    ∀ (chars : List Int) (acc : PartAcc) (rem : List Nat),
      MInvP n tokn acc →
      MInvP n tokn (minChars rev aTok chars acc rem).1 := by
  intro chars
  induction chars with
  | nil =>
    intro acc rem hinv
    exact hinv
  | cons char chars ih =>
    intro acc rem hinv
    simp only [minChars]
    generalize ((dictGet acc.store aTok).getD []).foldl
      (fun ds n => ndUnion natLtb ((dictGet2 rev n char).getD []) ds) [] = ds
    split
    · exact ih acc rem hinv
    · rcases hra : refineApply (refineGroups acc.partition ds) acc
        with ⟨acc', pairs⟩
      dsimp only
      refine ih acc' (minAddPairs acc'.store rem pairs) ?_
      have hpres := refineApply_preserves n tokn acc.partition
        hinv.2.2.2.1 hinv.1 (refineGroups acc.partition ds) acc
        (refineGroups_groups acc.partition ds) hinv
      rw [hra] at hpres
      exact hpres

/-- The worklist loop of minimization preserves the match-singleton
invariant. -/
theorem minLoop_preserves (alphabet : List Int)
    (rev : Dict Nat (Dict Int (List Nat))) (n tokn : Nat) :
    ∀ (fuel : Nat) (acc : PartAcc) (rem : List Nat) (out : PartAcc),
      minLoop alphabet rev fuel acc rem = some out →
      MInvP n tokn acc → MInvP n tokn out := by
  intro fuel
  induction fuel with
  | zero =>
    intro acc rem out h
    simp [minLoop] at h
  | succ f ih =>
    intro acc rem out h hinv
    rcases rem with _ | ⟨aTok, rest⟩
    · simp only [minLoop, Option.some.injEq] at h
      rw [← h]
      exact hinv
    · simp only [minLoop] at h
      rcases hmc : minChars rev aTok alphabet acc rest with ⟨acc', rem'⟩
      rw [hmc] at h
      dsimp only at h
      refine ih acc' rem' out h ?_
      have hpres := minChars_preserves rev aTok n tokn alphabet acc rest hinv
      rw [hmc] at hpres
      exact hpres

/-- The initial rough partition satisfies the match-singleton invariant at
every match node, with the node's index as its token. -/
theorem initPartAcc_inv (dfa : DFA) (n : Nat) (hn : n ∈ dfa.matchNodes) :
    MInvP n (List.indexOf n dfa.matchNodes) (initPartAcc dfa) := by
  have hk : List.indexOf n dfa.matchNodes < dfa.matchNodes.length :=
    List.indexOf_lt_length.mpr hn
  have hget : dfa.matchNodes.get ⟨List.indexOf n dfa.matchNodes, hk⟩ = n :=
    List.indexOf_get hk
  have hstore : ∀ tok, dictGet (initPartAcc dfa).store tok =
      (initSets dfa).get? tok := fun tok => dictGet_initStore (initSets dfa) tok
  have hsets3 : ∀ tok l, (initSets dfa).get? tok = some l → n ∈ l →
      tok = List.indexOf n dfa.matchNodes ∧ l = [n] := by
    intro tok l hl hnl
    rcases List.get?_eq_some.mp hl with ⟨hlen, _⟩
    by_cases htok : tok < dfa.matchNodes.length
    · have hx := initSets_get_lt dfa tok htok
      rw [hl] at hx
      injection hx with hx
      have hn2 : dfa.matchNodes.get ⟨tok, htok⟩ = n := by
        rw [hx] at hnl
        have := List.mem_singleton.mp hnl
        exact this.symm
      have hfin : (⟨tok, htok⟩ : Fin dfa.matchNodes.length) =
          ⟨List.indexOf n dfa.matchNodes, hk⟩ :=
        (List.Nodup.get_inj_iff (matchNodes_nodup dfa)).mp
          (by rw [hget, hn2])
      refine ⟨congrArg Fin.val hfin, ?_⟩
      rw [hx, hn2]
    · have hlen2 : tok < (initSets dfa).length := hlen
      rw [initSets_length] at hlen2
      have htok2 : tok = dfa.matchNodes.length := by omega
      subst htok2
      have hx := initSets_get_last dfa
      rw [hl] at hx
      injection hx with hx
      exfalso
      rw [hx] at hnl
      exact ((mem_ndDiff n _ _).mp hnl).2 hn
  have hstonk : dictGet (initPartAcc dfa).store
      (List.indexOf n dfa.matchNodes) = some [n] := by
    rw [hstore, initSets_get_lt dfa _ hk, hget]
  have hmem : ((List.indexOf n dfa.matchNodes, [n]) :
      Nat × List Nat) ∈ ((initSets dfa).zip
        (List.range (initSets dfa).length)).map (fun p => (p.2, p.1)) :=
    dictGet_some_mem _ _ _ hstonk
  have hallp : ∀ p ∈ ((initSets dfa).zip
      (List.range (initSets dfa).length)).map (fun p => (p.2, p.1)),
      n ∈ p.2 → p.1 = List.indexOf n dfa.matchNodes := by
    intro p hp hnp
    have hg := dictGet_of_mem_nodup _ p.1 p.2 hp (nodupKeys_initStore _)
    rw [dictGet_initStore] at hg
    exact (hsets3 p.1 p.2 hg hnp).1
  refine ⟨?_, hstonk, ?_, ?_, ?_, ?_⟩
  · exact (pf_get _ [] n).2.1 (List.indexOf n dfa.matchNodes) hallp
      (Or.inl ⟨_, hmem, List.mem_singleton.mpr rfl⟩)
  · intro tok l hl hnl
    rw [hstore] at hl
    exact hsets3 tok l hl hnl
  · intro v hv
    rcases (pf_get _ [] v).2.2 (List.indexOf n dfa.matchNodes) hv with
      ⟨p, hp, hvp, hpt⟩ | h0
    · have hg := dictGet_of_mem_nodup _ p.1 p.2 hp (nodupKeys_initStore _)
      rw [dictGet_initStore, hpt] at hg
      rw [initSets_get_lt dfa _ hk, hget] at hg
      injection hg with hg
      rw [← hg] at hvp
      exact List.mem_singleton.mp hvp
    · simp [dictGet] at h0
  · intro tok hiS
    rw [hstore tok] at hiS
    rcases Option.isSome_iff_exists.mp hiS with ⟨l, hl⟩
    rcases List.get?_eq_some.mp hl with ⟨hlen, _⟩
    exact hlen
  · exact pf_nodup _ [] (by simp [dictKeys])

/-- The enumerate-and-overwrite fold behind `buildMapping`: a node in none
of the parts is untouched; a node in some part reads `i0 + j` for an index
`j` of a part containing it. -/
theorem bm_fold (x : Nat) :
    ∀ (parts : List (List Nat)) (m0 : Dict Nat Nat) (i0 : Nat),
      ((∀ p ∈ parts, x ∉ p) →
        dictGet (parts.foldl
          (fun st part => (part.foldl (fun m old => dictSet m old st.2) st.1,
            st.2 + 1)) (m0, i0)).1 x = dictGet m0 x) ∧
      ((∃ p ∈ parts, x ∈ p) →
        ∃ j, ∃ hj : j < parts.length, x ∈ parts.get ⟨j, hj⟩ ∧
          dictGet (parts.foldl
            (fun st part => (part.foldl (fun m old => dictSet m old st.2) st.1,
              st.2 + 1)) (m0, i0)).1 x = some (i0 + j)) := by
  intro parts
  induction parts with
  | nil =>
    intro m0 i0
    refine ⟨fun _ => rfl, fun hex => ?_⟩
    rcases hex with ⟨p, hp, _⟩
    simp at hp
  | cons part parts ih =>
    intro m0 i0
    rw [List.foldl_cons]
    dsimp only
    refine ⟨fun hall => ?_, fun hex => ?_⟩
    · rw [(ih _ (i0 + 1)).1 (fun p hp => hall p (List.mem_cons_of_mem part hp))]
      rw [dictGet_foldl_dictSet_const,
        if_neg (hall part (List.mem_cons_self part parts))]
    · by_cases hex2 : ∃ p ∈ parts, x ∈ p
      · rcases (ih _ (i0 + 1)).2 hex2 with ⟨j, hj, hxj, hval⟩
        refine ⟨j + 1, by simpa using Nat.succ_lt_succ hj, hxj, ?_⟩
        rw [hval]
        congr 1
        omega
      · have hxp : x ∈ part := by
          rcases hex with ⟨p, hp, hxp⟩
          rcases List.mem_cons.mp hp with h1 | h1
          · rw [← h1]
            exact hxp
          · exact absurd ⟨p, h1, hxp⟩ hex2
        refine ⟨0, by simp, hxp, ?_⟩
        rw [(ih _ (i0 + 1)).1 (fun p hp hxp2 => hex2 ⟨p, hp, hxp2⟩)]
        rw [dictGet_foldl_dictSet_const, if_pos hxp]
        rfl

/-- A node lying in some class list is mapped by `buildMapping` to an index
of a sorted class list containing it. -/
theorem buildMapping_get (classes : List (List Nat)) (x : Nat)
    (hex : ∃ p ∈ classes, x ∈ p) :
    ∃ j, ∃ hj : j <
        (List.insertionSort (fun a b : List Nat => a ≤ b) classes).length,
      x ∈ (List.insertionSort (fun a b : List Nat => a ≤ b) classes).get
        ⟨j, hj⟩ ∧
      dictGet (buildMapping classes) x = some j := by
  unfold buildMapping
  have hex2 : ∃ p ∈ List.insertionSort (fun a b : List Nat => a ≤ b) classes,
      x ∈ p := by
    rcases hex with ⟨p, hp, hxp⟩
    exact ⟨p, (List.perm_insertionSort _ classes).mem_iff.mpr hp, hxp⟩
  rcases (bm_fold x (List.insertionSort (fun a b : List Nat => a ≤ b) classes)
      [] 0).2 hex2 with ⟨j, hj, hxj, hval⟩
  refine ⟨j, hj, hxj, ?_⟩
  rw [hval]
  congr 1
  omega

/-- Under the match-singleton invariant, the class lists containing `n`
are exactly copies of `[n]`, and at least one copy is present. -/
theorem classLists_match (acc : PartAcc) (n tokn : Nat)
    (hi : MInvP n tokn acc) :
    (∃ l ∈ classLists acc, n ∈ l) ∧
    (∀ l ∈ classLists acc, n ∈ l → l = [n]) := by
  constructor
  · refine ⟨(dictGet acc.store tokn).getD [], ?_, ?_⟩
    · unfold classLists
      exact List.mem_map.mpr ⟨(n, tokn), dictGet_some_mem _ _ _ hi.1, rfl⟩
    · rw [hi.2.1]
      simp
  · intro l hl hnl
    unfold classLists at hl
    rcases List.mem_map.mp hl with ⟨p, _, hpl⟩
    rcases hw : dictGet acc.store p.2 with _ | w
    · rw [hw] at hpl
      rw [← hpl] at hnl
      simp at hnl
    · rw [hw] at hpl
      have := hi.2.2.1 p.2 w hw (by rw [← hpl] at hnl; simpa using hnl)
      rw [← hpl]
      simp only [Option.getD_some]
      exact this.2

/-- Distinct match nodes receive distinct ids from `buildMapping`. -/
theorem buildMapping_inj_on (acc : PartAcc) (n tokn n' tokn' : Nat)
    (hi : MInvP n tokn acc) (hi' : MInvP n' tokn' acc)
    (j : Nat) (hjn : dictGet (buildMapping (classLists acc)) n = some j)
    (hjn' : dictGet (buildMapping (classLists acc)) n' = some j) :
    n = n' := by
  rcases buildMapping_get (classLists acc) n (classLists_match acc n tokn hi).1
    with ⟨a, ha, hxa, hva⟩
  rcases buildMapping_get (classLists acc) n'
      (classLists_match acc n' tokn' hi').1
    with ⟨b, hb, hxb, hvb⟩
  rw [hva] at hjn
  rw [hvb] at hjn'
  injection hjn with hjn
  injection hjn' with hjn'
  have hperm := List.perm_insertionSort
    (fun a b : List Nat => a ≤ b) (classLists acc)
  have hla : (List.insertionSort (fun a b : List Nat => a ≤ b)
      (classLists acc)).get ⟨a, ha⟩ = [n] :=
    (classLists_match acc n tokn hi).2 _
      (hperm.mem_iff.mp (List.get_mem _ _ _)) hxa
  have hlb : (List.insertionSort (fun a b : List Nat => a ≤ b)
      (classLists acc)).get ⟨b, hb⟩ = [n'] :=
    (classLists_match acc n' tokn' hi').2 _
      (hperm.mem_iff.mp (List.get_mem _ _ _)) hxb
  have hgeq : (List.insertionSort (fun a b : List Nat => a ≤ b)
      (classLists acc)).get ⟨a, ha⟩ =
      (List.insertionSort (fun a b : List Nat => a ≤ b)
        (classLists acc)).get ⟨b, hb⟩ := by
    congr 1
    exact Fin.ext (show a = b by omega)
  have hnn : [n] = [n'] := by
    rw [← hla, hgeq]
    exact hlb
  exact (List.cons.inj hnn).1

/-- A fold whose step propagates errors keeps an error. -/
theorem except_foldl_error {ε γ δ : Type} (step : Except ε γ → δ → Except ε γ)
    (hstep : ∀ e p, step (Except.error e) p = Except.error e) :
    ∀ (items : List δ) (e : ε),
      items.foldl step (Except.error e) = Except.error e := by
  intro items
  induction items with
  | nil =>
    intro e
    rfl
  | cons p items ih =>
    intro e
    rw [List.foldl_cons, hstep]
    exact ih e

/-- A name is a rule name exactly when some match node carries it. -/
theorem mem_ruleNames (dfa : DFA) (s : String) :
    s ∈ dfa.ruleNames ↔ ∃ p ∈ dfa.matchNodeNames, p.2 = s := by
  unfold DFA.ruleNames
  induction dfa.matchNodeNames with
  | nil => simp
  | cons q rest ih =>
    rw [List.foldr_cons, mem_ndIns, ih]
    constructor
    · rintro (h | ⟨p, hp, he⟩)
      · exact ⟨q, List.mem_cons_self q rest, h.symm⟩
      · exact ⟨p, List.mem_cons_of_mem q hp, he⟩
    · rintro ⟨p, hp, he⟩
      rcases List.mem_cons.mp hp with h1 | h1
      · rw [h1] at he
        exact Or.inl he.symm
      · exact Or.inr ⟨p, h1, he⟩

/-- A node is a match node exactly when it keys `matchNodeNames`. -/
theorem mem_matchNodes (dfa : DFA) (n : Nat) :
    n ∈ dfa.matchNodes ↔ ∃ p ∈ dfa.matchNodeNames, p.1 = n := by
  unfold DFA.matchNodes
  induction dfa.matchNodeNames with
  | nil => simp
  | cons q rest ih =>
    rw [List.foldr_cons, mem_ndIns, ih]
    constructor
    · rintro (h | ⟨p, hp, he⟩)
      · exact ⟨q, List.mem_cons_self q rest, h.symm⟩
      · exact ⟨p, List.mem_cons_of_mem q hp, he⟩
    · rintro ⟨p, hp, he⟩
      rcases List.mem_cons.mp hp with h1 | h1
      · rw [h1] at he
        exact Or.inl he.symm
      · exact Or.inr ⟨p, h1, he⟩

/-- With distinct keys, two bindings of one key agree. -/
theorem value_eq_of_nodupKeys {α β : Type} [DecidableEq α]
    (d : Dict α β) (k : α) (v w : β) (hv : (k, v) ∈ d) (hw : (k, w) ∈ d)
    (hnd : (dictKeys d).Nodup) : v = w := by
  have h1 := dictGet_of_mem_nodup d k v hv hnd
  have h2 := dictGet_of_mem_nodup d k w hw hnd
  rw [h1] at h2
  exact Option.some.inj h2

/-- In the `rebuildNames` fold, if every listed binding that maps to `K`
carries the name `sname`, and one such binding exists (or the accumulator
already holds it), the result binds `K` to `sname`. -/
theorem rebuildNames_fold_get (mapping : Dict Nat Nat) (K : Nat)
    (sname : String) :
    ∀ (items : List (Nat × String)) (acc d : Dict Nat String),
      items.foldl (fun acc p => do
        let d ← acc
        match dictGet mapping p.1 with
        | none => Except.error "KeyError: unmapped match node"
        | some newNode => pure (dictSet d newNode p.2)) (Except.ok acc) =
          Except.ok d →
      (∀ q ∈ items, dictGet mapping q.1 = some K → q.2 = sname) →
      ((∃ q ∈ items, dictGet mapping q.1 = some K ∧ q.2 = sname) ∨
        dictGet acc K = some sname) →
      dictGet d K = some sname := by
  intro items
  induction items with
  | nil =>
    intro acc d h hall hex
    injection h with h
    rcases hex with ⟨q, hq, _⟩ | h0
    · simp at hq
    · rw [← h]
      exact h0
  | cons q items ih =>
    intro acc d h hall hex
    rw [List.foldl_cons] at h
    rcases hmq : dictGet mapping q.1 with _ | nn
    · exfalso
      have hstep : (do
          let d ← Except.ok acc
          match dictGet mapping q.1 with
          | none => Except.error "KeyError: unmapped match node"
          | some newNode =>
            pure (dictSet d newNode q.2) : Except String (Dict Nat String)) = Except.error "KeyError: unmapped match node" := by
        show (match dictGet mapping q.1 with
          | none => (Except.error "KeyError: unmapped match node" :
              Except String (Dict Nat String))
          | some newNode => pure (dictSet acc newNode q.2)) =
          Except.error "KeyError: unmapped match node"
        rw [hmq]
      rw [hstep] at h
      rw [except_foldl_error _ (fun e p => rfl) items _] at h
      exact absurd h (by simp)
    · have hstep : (do
          let d ← Except.ok acc
          match dictGet mapping q.1 with
          | none => Except.error "KeyError: unmapped match node"
          | some newNode =>
            pure (dictSet d newNode q.2) : Except String (Dict Nat String)) = Except.ok (dictSet acc nn q.2) := by
        show (match dictGet mapping q.1 with
          | none => (Except.error "KeyError: unmapped match node" :
              Except String (Dict Nat String))
          | some newNode => pure (dictSet acc newNode q.2)) =
          Except.ok (dictSet acc nn q.2)
        rw [hmq]
        rfl
      rw [hstep] at h
      by_cases hKn : nn = K
      · subst hKn
        have hq2 : q.2 = sname :=
          hall q (List.mem_cons_self q items) hmq
        refine ih (dictSet acc nn q.2) d h
          (fun r hr => hall r (List.mem_cons_of_mem q hr)) (Or.inr ?_)
        rw [dictGet_dictSet_self, hq2]
      · refine ih (dictSet acc nn q.2) d h
          (fun r hr => hall r (List.mem_cons_of_mem q hr)) ?_
        rcases hex with ⟨r, hr, hrK, hrs⟩ | h0
        · rcases List.mem_cons.mp hr with h1 | h1
          · exfalso
            rw [h1] at hrK
            rw [hmq] at hrK
            injection hrK with hrK
            exact hKn hrK
          · exact Or.inl ⟨r, h1, hrK, hrs⟩
        · refine Or.inr ?_
          rw [dictGet_dictSet_ne acc nn K q.2 hKn]
          exact h0

/-- Every value in the `rebuildNames` fold's output is a listed name or an
accumulator value. -/
theorem rebuildNames_fold_sub (mapping : Dict Nat Nat) :
    ∀ (items : List (Nat × String)) (acc d : Dict Nat String),
      items.foldl (fun acc p => do
        let d ← acc
        match dictGet mapping p.1 with
        | none => Except.error "KeyError: unmapped match node"
        | some newNode => pure (dictSet d newNode p.2)) (Except.ok acc) =
          Except.ok d →
      ∀ p ∈ d, (∃ q ∈ items, q.2 = p.2) ∨ (∃ q ∈ acc, q.2 = p.2) := by
  intro items
  induction items with
  | nil =>
    intro acc d h p hp
    injection h with h
    rw [← h] at hp
    exact Or.inr ⟨p, hp, rfl⟩
  | cons q items ih =>
    intro acc d h p hp
    rw [List.foldl_cons] at h
    rcases hmq : dictGet mapping q.1 with _ | nn
    · exfalso
      have hstep : (do
          let d ← Except.ok acc
          match dictGet mapping q.1 with
          | none => Except.error "KeyError: unmapped match node"
          | some newNode =>
            pure (dictSet d newNode q.2) : Except String (Dict Nat String)) = Except.error "KeyError: unmapped match node" := by
        show (match dictGet mapping q.1 with
          | none => (Except.error "KeyError: unmapped match node" :
              Except String (Dict Nat String))
          | some newNode => pure (dictSet acc newNode q.2)) =
          Except.error "KeyError: unmapped match node"
        rw [hmq]
      rw [hstep] at h
      rw [except_foldl_error _ (fun e p => rfl) items _] at h
      exact absurd h (by simp)
    · have hstep : (do
          let d ← Except.ok acc
          match dictGet mapping q.1 with
          | none => Except.error "KeyError: unmapped match node"
          | some newNode =>
            pure (dictSet d newNode q.2) : Except String (Dict Nat String)) = Except.ok (dictSet acc nn q.2) := by
        show (match dictGet mapping q.1 with
          | none => (Except.error "KeyError: unmapped match node" :
              Except String (Dict Nat String))
          | some newNode => pure (dictSet acc newNode q.2)) =
          Except.ok (dictSet acc nn q.2)
        rw [hmq]
        rfl
      rw [hstep] at h
      rcases ih (dictSet acc nn q.2) d h p hp with h1 | ⟨r, hr, hrs⟩
      · rcases h1 with ⟨r, hr, hrs⟩
        exact Or.inl ⟨r, List.mem_cons_of_mem q hr, hrs⟩
      · rcases mem_dictSet_sub acc nn q.2 r hr with h2 | h2
        · refine Or.inl ⟨q, List.mem_cons_self q items, ?_⟩
          rw [← hrs, h2]
        · exact Or.inr ⟨r, h2, hrs⟩

/-- C10: `gen_dfa` copies the NFA's `literalRules` into the fat DFA
unchanged, and `minimizeDFA` passes `literalRules` through and preserves
the set of match-node names (`ruleNames`): neither stage adds, drops, or
renames a rule.  (Name preservation holds because every match node starts
in a singleton class, refinement never splits singletons, and the
canonical renumbering maps distinct classes to distinct ids.) -/
theorem c10_frame_effects :
    (∀ (nfa : NFA) (dfa : DFA), gen_dfa nfa = Except.ok dfa →
      dfa.literalRules = nfa.literalRules) ∧
    (∀ (dfa m : DFA), minimizeDFA dfa = Except.ok m →
      m.literalRules = dfa.literalRules ∧
      ((dictKeys dfa.matchNodeNames).Nodup →
        ∀ s, s ∈ m.ruleNames ↔ s ∈ dfa.ruleNames)) := by
  constructor
  · intro nfa dfa h
    simp only [gen_dfa] at h
    rcases h0 : lookupOrAlloc [] (advance_empties nfa [0]) with ⟨startNode, s2n₀⟩
    rw [h0] at h
    rcases h1 : lookupOrAlloc s2n₀ [1] with ⟨invalidNode, s2n₁⟩
    rw [h1] at h
    dsimp only at h
    rcases h2 : genLoop nfa nfa.alphabet (2 ^ (nfaSize nfa + 2) + 2) s2n₁ []
      [advance_empties nfa [0]] with _ | pr
    · rw [h2] at h
      simp at h
    · rw [h2] at h
      dsimp only at h
      obtain ⟨s2n, trs⟩ := pr
      dsimp only at h
      split at h
      · simp at h
      · rcases h3 : dictSetDefault trs startNode [] with ⟨startDict, trans₁⟩
        rw [h3] at h
        dsimp only at h
        rcases h4 : dictSetDefault trans₁ invalidNode []
          with ⟨invalidDict, trans₂⟩
        rw [h4] at h
        dsimp only at h
        rcases h5 : genComplete startNode invalidNode startDict invalidDict
          with ⟨startDict', invalidDict'⟩
        rw [h5] at h
        dsimp only at h
        rcases h6 : coalesceNameSets nfa.literalRules (genNameSets nfa s2n)
          with e | mnn
        · rw [h6] at h
          simp at h
        · rw [h6] at h
          dsimp only at h
          injection h with hd
          rw [← hd]
  · intro dfa m h
    simp only [minimizeDFA] at h
    rcases hml : minLoop dfa.alphabet (revTransitions dfa)
        (2 * dfaSize dfa + 8) (initPartAcc dfa)
        (List.range (initSets dfa).length).reverse with _ | acc
    · rw [hml] at h
      simp at h
    · rw [hml] at h
      dsimp only at h
      rcases hrt : rebuildTransitions dfa (buildMapping (classLists acc))
        with e | trs
      · rw [hrt] at h
        exact absurd (show (Except.error e : Except String DFA) =
          Except.ok m from h) (by simp)
      · rw [hrt] at h
        rcases hrn : rebuildNames dfa (buildMapping (classLists acc))
          with e | mnn
        · rw [hrn] at h
          exact absurd (show (Except.error e : Except String DFA) =
            Except.ok m from h) (by simp)
        · rw [hrn] at h
          have hm : (⟨trs, mnn, dfa.literalRules⟩ : DFA) = m :=
            Except.ok.inj (show Except.ok (⟨trs, mnn, dfa.literalRules⟩ :
              DFA) = Except.ok m from h)
          have hfold : dfa.matchNodeNames.foldl (fun a p => do
              let d ← a
              match dictGet (buildMapping (classLists acc)) p.1 with
              | none => Except.error "KeyError: unmapped match node"
              | some newNode => pure (dictSet d newNode p.2))
              (Except.ok []) = Except.ok mnn := hrn
          constructor
          · rw [← hm]
          · intro hnd s
            have hmn : m.matchNodeNames = mnn := by rw [← hm]
            rw [mem_ruleNames, mem_ruleNames, hmn]
            constructor
            · rintro ⟨p, hp, hps⟩
              rcases rebuildNames_fold_sub (buildMapping (classLists acc))
                  dfa.matchNodeNames [] mnn hfold p hp
                with ⟨q, hq, hqs⟩ | ⟨q, hq, _⟩
              · exact ⟨q, hq, by rw [hqs, hps]⟩
              · simp at hq
            · rintro ⟨p, hp, hps⟩
              have hnM : p.1 ∈ dfa.matchNodes :=
                (mem_matchNodes dfa p.1).mpr ⟨p, hp, rfl⟩
              have hInv : MInvP p.1 (List.indexOf p.1 dfa.matchNodes) acc :=
                minLoop_preserves dfa.alphabet (revTransitions dfa) p.1 _
                  (2 * dfaSize dfa + 8) (initPartAcc dfa)
                  (List.range (initSets dfa).length).reverse acc hml
                  (initPartAcc_inv dfa p.1 hnM)
              rcases buildMapping_get (classLists acc) p.1
                  (classLists_match acc p.1 _ hInv).1
                with ⟨j, hj, hxj, hmapn⟩
              have hall : ∀ q ∈ dfa.matchNodeNames,
                  dictGet (buildMapping (classLists acc)) q.1 = some j →
                  q.2 = s := by
                intro q hq hqK
                have hqM : q.1 ∈ dfa.matchNodes :=
                  (mem_matchNodes dfa q.1).mpr ⟨q, hq, rfl⟩
                have hInvq : MInvP q.1 (List.indexOf q.1 dfa.matchNodes) acc :=
                  minLoop_preserves dfa.alphabet (revTransitions dfa) q.1 _
                    (2 * dfaSize dfa + 8) (initPartAcc dfa)
                    (List.range (initSets dfa).length).reverse acc hml
                    (initPartAcc_inv dfa q.1 hqM)
                have hq1 : q.1 = p.1 :=
                  buildMapping_inj_on acc q.1 _ p.1 _ hInvq hInv j hqK hmapn
                have hv : q.2 = p.2 :=
                  value_eq_of_nodupKeys dfa.matchNodeNames p.1 q.2 p.2
                    (by rw [← hq1]; exact hq) hp hnd
                rw [hv, hps]
              have hget := rebuildNames_fold_get
                (buildMapping (classLists acc)) j s dfa.matchNodeNames [] mnn
                hfold hall (Or.inl ⟨p, hp, hmapn, hps⟩)
              exact ⟨(j, s), dictGet_some_mem mnn j s hget, rfl⟩

/-- Witness for C10 at the example automata. -/
theorem c10_frame_effects_witness :
    (∃ dfa, gen_dfa exRuleA = Except.ok dfa ∧
      dfa.literalRules = exRuleA.literalRules) ∧
    (∃ m, minimizeDFA exC6DFA = Except.ok m ∧
      m.literalRules = exC6DFA.literalRules ∧
      (dictKeys exC6DFA.matchNodeNames).Nodup ∧
      (∀ s, s ∈ m.ruleNames ↔ s ∈ exC6DFA.ruleNames)) := by
  constructor
  · have ht : (gen_dfa exRuleA).toOption ≠ none := by decide
    rcases hg : gen_dfa exRuleA with e | dfa
    · rw [hg] at ht
      exact absurd rfl ht
    · exact ⟨dfa, rfl, c10_frame_effects.1 exRuleA dfa hg⟩
  · have ht : (minimizeDFA exC6DFA).toOption ≠ none := by decide
    rcases hg : minimizeDFA exC6DFA with e | m
    · rw [hg] at ht
      exact absurd rfl ht
    · have hnd : (dictKeys exC6DFA.matchNodeNames).Nodup := by decide
      exact ⟨m, rfl, (c10_frame_effects.2 exC6DFA m hg).1, hnd,
        (c10_frame_effects.2 exC6DFA m hg).2 hnd⟩

/-- C2 evidence: `minimizeDFA` does not preserve `match`.  On `exC2DFA`
the fat DFA matches the byte string `"a"` as rule `r`, but in the
minimized DFA the start class {0, 3} is renumbered to id 1 (no node gets
id 0), so `match` — which always starts at node 0 — finds no transition
row and returns no-match. -/
theorem c2_minimize_breaks_match :
    DFA.matchB exC2DFA [97] = some "r" ∧
    (minimizeDFA exC2DFA).map (fun m => (m.matchB [97],
      dictGet m.transitions 0)) = .ok (none, none) := by
  refine ⟨by decide, by decide⟩

end Legs
